import Mathlib

set_option maxRecDepth 4000

/-!
Verification of the resilient multi-stage summarization pipeline of the
LLMs-Generator repository.  Python strings are modelled as lists of
characters, Python dicts as insertion-ordered association lists, the
filesystem and the external text-generation service as explicit function
parameters, and exceptions as explicit outcome values.  Each definition
names the source function it embeds.
-/

/-- Python strings are modelled as lists of characters. -/
abbrev PStr := List Char

/-- Converts a Lean string literal into the character-list model. -/
def pstr (s : String) : PStr := s.toList

/-- A Python `dict` with string keys and string values, modelled as an
insertion-ordered association list whose keys are unique. -/
abbrev PyDict := List (PStr × PStr)

/-- Models Python dict lookup `d.get(k)` (also `k in d` via `isSome`). -/
def pyDictGet (d : PyDict) (k : PStr) : Option PStr :=
  match d with
  | [] => none
  | (k₁, v₁) :: rest => if k₁ = k then some v₁ else pyDictGet rest k

/-- Models Python dict assignment `d[k] = v`: overwrite the value in place if
the key exists (keeping insertion order), otherwise append the new pair. -/
def pyDictSet (d : PyDict) (k v : PStr) : PyDict :=
  match d with
  | [] => [(k, v)]
  | (k₁, v₁) :: rest => if k₁ = k then (k₁, v) :: rest else (k₁, v₁) :: pyDictSet rest k v

/-- Models Python `d.update(u)`: upsert every pair of `u` into `d`, in order. -/
def pyDictUpdate (d u : PyDict) : PyDict :=
  u.foldl (fun acc kv => pyDictSet acc kv.1 kv.2) d

/-- The key list of a modelled dict (Python `d.keys()`). -/
def pyDictKeys (d : PyDict) : List PStr := d.map (fun kv => kv.1)

/-- Embeds `update_summaries` (src/llms_gen_agent/sub_agents/doc_summariser/tools.py,
lines 87-106): `tool_context.state["all_summaries"].update(batch_summaries)` merges the
current batch summaries into the running accumulator and never fails. -/
def update_summaries (all_summaries batch_summaries : PyDict) : PyDict :=
  pyDictUpdate all_summaries batch_summaries

/-- Embeds `ConfigError` from `common_utils.exceptions`, the exception class used
for configuration problems. -/
structure ConfigError where
  message : PStr
deriving DecidableEq

/-- Fixed-width chunking of a list into consecutive pieces of size `b + 1`
(the successor form keeps the chunk size positive). -/
def chunkList (b : Nat) : List PStr → List (List PStr)
  | [] => []
  | x :: xs => (x :: List.take b xs) :: chunkList b (List.drop b xs)
termination_by l => l.length
decreasing_by
  simp only [List.length_drop, List.length_cons]
  omega

/-- Modelled from the spec: the body of `create_file_batches` is absent from the
sources (src/llms_gen_agent/sub_agents/doc_summariser/agent.py imports it and its
unit tests exercise it, but no definition is present).  Following spec §4.1, it
performs ordinary fixed-width chunking of the discovered `files` list into
`ceil(n/B)` ordered batches of size at most `B`, and rejects a batch size
`B ≤ 0` with a `ConfigurationError` before forming any batch. -/
def create_file_batches (files : List PStr) (batch_size : Int) :
    Except ConfigError (List (List PStr)) :=
  if batch_size ≤ 0 then
    Except.error ⟨pstr "Batch size must be a positive integer"⟩
  else
    Except.ok (chunkList (batch_size.toNat - 1) files)

/-- Outcome of one invocation of the wrapped text-generation call: a returned
value, a `ResourceExhausted` (rate-limit) exception, or any other exception. -/
inductive CallOutcome where
  | success (value : PStr)
  | resourceExhausted (msg : PStr)
  | otherFailure (msg : PStr)
deriving DecidableEq

/-- True exactly on the distinguished rate-limit failure class. -/
def isResourceExhausted : CallOutcome → Bool
  | CallOutcome.resourceExhausted _ => true
  | _ => false

/-- Models the tenacity retry loop built by `async_retry_with_exponential_backoff`
(src/common_utils/retry_utils.py, lines 16-33): `stop_after_attempt` many total
attempts, `retry_if_exception_type(ResourceExhausted)`, `reraise=True`.  `f i` is
the outcome of the `i`-th invocation of the wrapped function (numbered from 1);
the result is the pair (number of invocations actually made, final outcome): a
`success` is returned, any outcome of the last permitted attempt is re-raised
as-is, and a non-rate-limit failure propagates immediately.  Backoff delays do
not affect invocation counts and are not modelled. -/
def retryFrom (f : Nat → CallOutcome) (attempt : Nat) : Nat → Nat × CallOutcome
  | 0 => (0, CallOutcome.otherFailure (pstr "no attempts permitted"))
  | 1 => (1, f attempt)
  | n + 2 =>
    match f attempt with
    | CallOutcome.resourceExhausted _ =>
      let r := retryFrom f (attempt + 1) (n + 1)
      (r.1 + 1, r.2)
    | o => (1, o)

/-- Embeds the decorated wrapper returned by `async_retry_with_exponential_backoff`
with its fixed `stop_after_attempt(5)` policy. -/
def async_retry_with_exponential_backoff (f : Nat → CallOutcome) : Nat × CallOutcome :=
  retryFrom f 1 5

/-- Result of `open(file_path).read()` for one file: the content, a failure of
the caught classes (`FileNotFoundError`, `PermissionError`, `UnicodeDecodeError`)
carrying `str(e)`, or any other exception carrying `str(e)`. -/
inductive ReadResult where
  | ok (content : PStr)
  | readFail (reason : PStr)
  | otherFail (reason : PStr)
deriving DecidableEq

/-- The fixed leading text of the placeholder stored for a caught read failure
(tools.py line 54: `f"Error: Could not read file. Reason: {e}"`). -/
def readFailText : PStr := pstr "Error: Could not read file. Reason: "

/-- The fixed leading text of the placeholder stored for any other exception
(tools.py line 58). -/
def unexpectedFailText : PStr := pstr "Error: An unexpected error occurred. Reason: "

/-- The value `read_files` stores for a file under filesystem behaviour `fs`. -/
def readContentFor (fs : PStr → ReadResult) (p : PStr) : PStr :=
  match fs p with
  | ReadResult.ok c => c
  | ReadResult.readFail r => readFailText ++ r
  | ReadResult.otherFail r => unexpectedFailText ++ r

/-- True exactly when the read attempt raised. -/
def isReadFailure : ReadResult → Bool
  | ReadResult.ok _ => false
  | _ => true

/-- The observable effect of one `read_files` call: the `files_content` dict it
leaves in session state, the returned status string, and the trace of files
actually handed to `open` (in order). -/
structure ReadFilesState where
  filesContent : PyDict
  status : PStr
  opened : List PStr
deriving DecidableEq

/-- The `for file_path in file_paths` loop of `read_files` (doc_summariser/tools.py,
lines 43-59), threading the accumulated state through the iterations. -/
def readFilesLoop (fs : PStr → ReadResult) : List PStr → ReadFilesState → ReadFilesState
  | [], st => st
  | p :: rest, st =>
    if (pyDictGet st.filesContent p).isSome then
      readFilesLoop fs rest st
    else
      match fs p with
      | ReadResult.ok c =>
        readFilesLoop fs rest ⟨pyDictSet st.filesContent p c, st.status, st.opened ++ [p]⟩
      | ReadResult.readFail r =>
        readFilesLoop fs rest
          ⟨pyDictSet st.filesContent p (readFailText ++ r), pstr "warnings", st.opened ++ [p]⟩
      | ReadResult.otherFail r =>
        readFilesLoop fs rest
          ⟨pyDictSet st.filesContent p (unexpectedFailText ++ r), pstr "warnings", st.opened ++ [p]⟩

/-- Embeds `read_files` (src/llms_gen_agent/sub_agents/doc_summariser/tools.py,
lines 15-61).  `filePaths` is the file list taken from `current_batch` (falling
back to `files`); `priorFilesContent` is whatever `files_content` held before
the call.  Line 40 resets `files_content` to an empty dict before the loop,
which the definition mirrors by starting the loop from the empty dict whatever
`priorFilesContent` holds; the returned status string starts as "success" and
is downgraded to "warnings" by any failed read. -/
def read_files (fs : PStr → ReadResult) (filePaths : List PStr)
    (priorFilesContent : PyDict) : ReadFilesState :=
  readFilesLoop fs filePaths ⟨[], pstr "success", []⟩

/-- The backtick character (kept out of character-literal syntax). -/
def btick : Char := Char.ofNat 96

/-- A triple-backtick fence marker. -/
def fenceTB : PStr := [btick, btick, btick]

/-- ASCII model of the regex character class `\w`. -/
def isPyWordChar (c : Char) : Bool := c.isAlphanum || c = '_'

/-- ASCII model of the regex character class `\s` / Python `str.strip` whitespace. -/
def isPyWs (c : Char) : Bool :=
  c = ' ' || c = '\t' || c = '\n' || c = '\r' || c = Char.ofNat 11 || c = Char.ofNat 12

/-- True when the text begins with a triple-backtick fence marker. -/
def startsTB (l : PStr) : Bool := decide (l.take 3 = fenceTB)

/-- True when the text contains a triple-backtick fence marker anywhere. -/
def hasTB : PStr → Bool
  | [] => false
  | c :: rest => startsTB (c :: rest) || hasTB rest

/-- The prefix of the text that precedes its first triple-backtick marker, or
`none` when no marker occurs; this is the lazy group `(.*?)` of the fence regex
together with its closing ` ``` `. -/
def takeUntilTB : PStr → Option PStr
  | [] => none
  | c :: rest =>
    if startsTB (c :: rest) then some []
    else (takeUntilTB rest).map (fun l => c :: l)

/-- Python `str.lstrip()` over the modelled whitespace class. -/
def lstripWs (l : PStr) : PStr := l.dropWhile isPyWs

/-- Python `str.rstrip()` over the modelled whitespace class. -/
def rstripWs (l : PStr) : PStr := (l.reverse.dropWhile isPyWs).reverse

/-- Python `str.strip()` over the modelled whitespace class. -/
def pyStrip (l : PStr) : PStr := rstripWs (lstripWs l)

/-- One attempt of the pattern ```` ```(?:\w*\s*)?(.*?)\s*``` ```` (re.DOTALL)
at a fixed start position, applied to the text following the opening marker:
the greedy `\w*` and `\s*` consume their maximal runs (no closing marker can
begin inside either run, so they never backtrack), the lazy group then extends
to the first closing marker, and the greedy trailing `\s*` takes the whitespace
run directly before that marker out of the group.  Returns the group, or `none`
when no closing marker follows (the attempt fails and the search moves on). -/
def matchFence (afterOpen : PStr) : Option PStr :=
  let afterWord := afterOpen.dropWhile isPyWordChar
  let afterWs := afterWord.dropWhile isPyWs
  (takeUntilTB afterWs).map rstripWs

/-- Models `re.search` with the fence pattern: attempts the match at each
position from the left; the first position whose attempt succeeds yields the
group. -/
def reSearchFence : PStr → Option PStr
  | [] => none
  | c :: rest =>
    match (if startsTB (c :: rest) then matchFence (rest.drop 2) else none) with
    | some g => some g
    | none => reSearchFence rest

/-- Embeds `clean_json_callback` (src/llms_gen_agent/sub_agents/doc_summariser/agent.py,
lines 41-77) applied to the response text: when the fence regex matches, the
response text is replaced by `match.group(1).strip()`; otherwise the original
text is returned unchanged. -/
def clean_json_callback (text : PStr) : PStr :=
  match reSearchFence text with
  | some g => pyStrip g
  | none => text

/-- True on the POSIX path separator. -/
def isSlashChar (c : Char) : Bool := c = '/'

/-- Python `str.split('/')` (`os.sep` is `/`): splits into the (possibly empty)
segments between separators. -/
def splitSlash : PStr → List PStr
  | [] => [[]]
  | c :: rest =>
    if c = '/' then [] :: splitSlash rest
    else
      match splitSlash rest with
      | g :: gs => (c :: g) :: gs
      | [] => [[c]]

/-- Joins path components with `/` separators (the effect of `posixpath.join`
on plain relative components). -/
def joinSlash : List PStr → PStr
  | [] => []
  | [g] => g
  | g :: h :: t => g ++ '/' :: joinSlash (h :: t)

/-- The non-empty components of a path, as computed inside `posixpath.relpath`
(`[x for x in path.split(sep) if x]`). -/
def pathComps (p : PStr) : List PStr :=
  (splitSlash p).filter (fun g => !g.isEmpty)

/-- Element-wise `os.path.commonprefix` length of two component lists. -/
def commonPrefixLen : List PStr → List PStr → Nat
  | a :: as, b :: bs => if a = b then commonPrefixLen as bs + 1 else 0
  | _, _ => 0

/-- Models `posixpath.relpath(path, start)` for already-absolute, normalized
inputs (as produced by `os.walk`/`os.path.join` in `discover_files`), where the
`abspath`/`normpath` steps are the identity: split both paths into non-empty
components, drop the common prefix, pad with `..` for the remaining `start`
components, and join. -/
def pyRelpath (path start : PStr) : PStr :=
  let p := pathComps path
  let s := pathComps start
  let i := commonPrefixLen s p
  let rel := List.replicate (s.length - i) (pstr "..") ++ p.drop i
  if rel.isEmpty then pstr "." else joinSlash rel

/-- Models `posixpath.dirname`: everything before the final `/` (the separator
itself stripped unless the head is all separators), empty when there is none. -/
def pyDirname (p : PStr) : PStr :=
  let head := (p.reverse.dropWhile (fun c => !isSlashChar c)).reverse
  if head.isEmpty || head.all isSlashChar then head
  else (head.reverse.dropWhile isSlashChar).reverse

/-- Models `posixpath.join` of two segments: an absolute second segment wins,
and a separator is inserted unless the first segment is empty or already ends
with one. -/
def pyJoin2 (a b : PStr) : PStr :=
  if b.head? = some '/' then b
  else if a.isEmpty || a.getLast? = some '/' then a ++ b
  else a ++ '/' :: b

/-- Models `posixpath.join(*parts)` for a non-empty list of segments. -/
def pyJoinList (ps : List PStr) : PStr :=
  match ps with
  | [] => []
  | q :: rest => rest.foldl pyJoin2 q

/-- Embeds the per-file body of `_map_files_to_effective_sections`
(src/llms_gen_agent/tools.py, lines 171-193): the directory of the file's path
relative to the corpus root, truncated to at most `maxDepth` components, mapped
back to an absolute section directory (the root itself for root-level files). -/
def effectiveSectionDir (filePath repoPath : PStr) (maxDepth : Nat) : PStr :=
  let relativeFilePath := pyRelpath filePath repoPath
  let relativeDirPath := pyDirname relativeFilePath
  let effRel :=
    if relativeDirPath.isEmpty then pstr "."
    else pyJoinList ((splitSlash relativeDirPath).take maxDepth)
  if effRel = pstr "." then repoPath else pyJoin2 repoPath effRel

/-- Embeds `_map_files_to_effective_sections` (lines 154-194): the dict from
each file path to its effective section directory, built by repeated dict
assignment over the file list. -/
def map_files_to_effective_sections (allFiles : List PStr) (repoPath : PStr)
    (maxDepth : Nat) : PyDict :=
  allFiles.foldl (fun d f => pyDictSet d f (effectiveSectionDir f repoPath maxDepth)) []

/-- ASCII model of Python `str.title()`: an alphabetic character is uppercased
after a non-alphabetic character and lowercased otherwise. -/
def pyTitleGo : Bool → PStr → PStr
  | _, [] => []
  | prevAlpha, c :: rest =>
    (if c.isAlpha then (if prevAlpha then c.toLower else c.toUpper) else c) ::
      pyTitleGo c.isAlpha rest

/-- ASCII model of Python `str.title()`. -/
def pyTitle (l : PStr) : PStr := pyTitleGo false l

/-- Embeds the section-name computation of `_write_llms_txt_section`
(src/llms_gen_agent/tools.py, lines 204-211): the directory's path relative to
the root, separators replaced by spaces, stripped, title-cased, with the root
section renamed to "Home". -/
def sectionDisplayName (directory repoPath : PStr) : PStr :=
  let n := pyTitle (pyStrip ((pyRelpath directory repoPath).map
    (fun c => if c = '/' then ' ' else c)))
  if n = pstr "." then pstr "Home" else n

/-- Code-point lexicographic strict order on modelled strings (Python `<`). -/
def pstrLtB : PStr → PStr → Bool
  | [], [] => false
  | [], _ :: _ => true
  | _ :: _, [] => false
  | a :: as, b :: bs => if a = b then pstrLtB as bs else decide (a.val < b.val)

/-- The corresponding non-strict order. -/
def pstrLeB (a b : PStr) : Bool := !pstrLtB b a

/-- Lexicographic order on (file, summary) pairs (Python tuple comparison). -/
def pairLeB (x y : PStr × PStr) : Bool :=
  if x.1 = y.1 then pstrLeB x.2 y.2 else pstrLtB x.1 y.1

/-- Python `sorted` on strings. -/
def sortStrs (l : List PStr) : List PStr :=
  List.insertionSort (fun a b => pstrLeB a b = true) l

/-- Python `sorted` on (file, summary) pairs. -/
def sortPairs (l : List (PStr × PStr)) : List (PStr × PStr) :=
  List.insertionSort (fun x y => pairLeB x y = true) l

/-- Embeds the per-section entry computation of `_write_llms_txt_section`
(src/llms_gen_agent/tools.py, lines 215-226): the (file, summary) pairs of the
files whose effective section is `directory`, with `doc_summaries.get(file_path,
"No summary")` supplying the summary, written in sorted order. -/
def sectionFileEntries (directory : PStr) (files : List PStr) (fm : PyDict)
    (docSummaries : PyDict) : List (PStr × PStr) :=
  sortPairs ((files.filter (fun f => decide (pyDictGet fm f = some directory))).map
    (fun f => (f, (pyDictGet docSummaries f).getD (pstr "No summary"))))

/-- Embeds the section assembly of `generate_llms_txt` (src/llms_gen_agent/tools.py,
lines 277-291): the effective-section dict is built with `MAX_SECTION_DEPTH = 2`,
its distinct values are sorted, and the per-file lines are emitted section by
section; the result is the ordered list of (file, summary) line entries. -/
def generate_llms_txt_entries (files : List PStr) (repoPath : PStr)
    (docSummaries : PyDict) : List (PStr × PStr) :=
  let fm := map_files_to_effective_sections files repoPath 2
  let dirs := sortStrs (fm.map (fun kv => kv.2)).dedup
  dirs.flatMap (fun d => sectionFileEntries d files fm docSummaries)

/-- The rendered line for one entry of a section
(`- [{basename}]({base_url}{relative_path}): {summary}`). -/
def renderLine (baseUrl repoPath : PStr) (e : PStr × PStr) : PStr :=
  pstr "- [" ++ (pathComps e.1).getLastD [] ++ pstr "](" ++ baseUrl ++
    pyRelpath e.1 repoPath ++ pstr "): " ++ e.2

/-- The session-state fields touched by the batch-processing loop. -/
structure SessionState where
  batches : List (List PStr)
  currentBatch : List PStr
  loopIteration : Nat
  filesContent : PyDict
  allSummaries : PyDict
deriving DecidableEq

/-- Embeds `process_batch_selection` (doc_summariser/tools.py, lines 64-85):
pops the next batch (escalating out of the loop when none remain) and
increments the iteration counter; returns the new state, the escalate flag and
the returned status string. -/
def process_batch_selection (st : SessionState) : SessionState × Bool × PStr :=
  match st.batches with
  | [] => (st, true, pstr "no_more_batches")
  | b :: rest =>
    ({ st with batches := rest, currentBatch := b, loopIteration := st.loopIteration + 1 },
     false, pstr "batch_selected")

/-- Embeds `single_batch_processor` (doc_summariser/agent.py, lines 203-211):
reads the current batch's files, obtains the batch summaries from the content
summariser (an external LLM call, the parameter `summarise`, mapping the
`files_content` dict to the `batch_summaries` dict) and merges them into
`all_summaries` via `update_summaries`. -/
def singleBatchProcessor (fs : PStr → ReadResult) (summarise : PyDict → PyDict)
    (st : SessionState) : SessionState :=
  let rf := read_files fs st.currentBatch st.filesContent
  { st with filesContent := rf.filesContent,
            allSummaries := update_summaries st.allSummaries (summarise rf.filesContent) }

/-- How the loop construct ended: by sub-agent escalation (queue exhausted) or
by reaching the iteration cap.  Neither exit raises or reports an error. -/
inductive LoopExit where
  | escalated
  | maxIterationsReached
deriving DecidableEq

/-- Models the `google.adk` `LoopAgent` driving `batch_processing_loop`
(doc_summariser/agent.py, lines 214-222): each iteration runs
`batch_selector_agent` then `single_batch_processor`; an escalation ends the
loop at once, and after `max_iterations` iterations the loop simply ends.  The
library raises no exception and emits no error event on the max-iterations
path. -/
def loopAgentRun (fs : PStr → ReadResult) (summarise : PyDict → PyDict) :
    Nat → SessionState → SessionState × LoopExit
  | 0, st => (st, LoopExit.maxIterationsReached)
  | n + 1, st =>
    let sel := process_batch_selection st
    if sel.2.1 then (sel.1, LoopExit.escalated)
    else loopAgentRun fs summarise n (singleBatchProcessor fs summarise sel.1)

/-- Embeds `batch_processing_loop` with its configured `max_iterations=200`. -/
def batch_processing_loop (fs : PStr → ReadResult) (summarise : PyDict → PyDict)
    (st : SessionState) : SessionState × LoopExit :=
  loopAgentRun fs summarise 200 st

/-- A wrapped call that hits the rate limit on its first two invocations and
succeeds on the third. -/
def exRetryFailTwice (i : Nat) : CallOutcome :=
  if i ≤ 2 then CallOutcome.resourceExhausted (pstr "429 quota exceeded")
  else CallOutcome.success (pstr "ok")

/-- A wrapped call that always hits the rate limit. -/
def exRetryAlwaysFail (_ : Nat) : CallOutcome :=
  CallOutcome.resourceExhausted (pstr "429 quota exceeded")

/-- A filesystem on which every read succeeds. -/
def exFsAllOk : PStr → ReadResult := fun _ => ReadResult.ok (pstr "text")

/-- A filesystem on which every read fails with a not-found error. -/
def exFsReasonA : PStr → ReadResult :=
  fun _ => ReadResult.readFail (pstr "No such file or directory: a.md")

/-- A filesystem on which every read fails with a permission error. -/
def exFsReasonB : PStr → ReadResult :=
  fun _ => ReadResult.readFail (pstr "Permission denied: a.md")

/-- A filesystem on which exactly `docs/guide.md` fails with a permission error. -/
def exFsFailGuide : PStr → ReadResult := fun p =>
  if p = pstr "/repo/docs/guide.md" then
    ReadResult.readFail (pstr "Permission denied: /repo/docs/guide.md")
  else ReadResult.ok (pstr "text")

/-- A content summariser that echoes the files-content dict as the summaries. -/
def exSummariseId : PyDict → PyDict := fun fc => fc

/-- A session state holding 201 one-file batches, one more than the loop cap. -/
def exState201 : SessionState :=
  ⟨List.replicate 201 [pstr "f.md"], [], 0, [], []⟩

theorem pyDictUpdate_nil (d : PyDict) : pyDictUpdate d [] = d := rfl

theorem pyDictUpdate_cons (d : PyDict) (k v : PStr) (u : PyDict) :
    pyDictUpdate d ((k, v) :: u) = pyDictUpdate (pyDictSet d k v) u := rfl

theorem pyDictKeys_nil : pyDictKeys [] = [] := rfl

theorem pyDictKeys_cons (k v : PStr) (d : PyDict) :
    pyDictKeys ((k, v) :: d) = k :: pyDictKeys d := rfl

theorem pyDictGet_cons (k₁ v₁ k : PStr) (d : PyDict) :
    pyDictGet ((k₁, v₁) :: d) k = if k₁ = k then some v₁ else pyDictGet d k := rfl

theorem pyDictGet_set (d : PyDict) (k v k₂ : PStr) :
    pyDictGet (pyDictSet d k v) k₂ = if k = k₂ then some v else pyDictGet d k₂ := by
  induction d with
  | nil => simp [pyDictSet, pyDictGet]
  | cons kv rest ih =>
    obtain ⟨k₁, v₁⟩ := kv
    by_cases h1 : k₁ = k
    · subst h1
      by_cases h2 : k₁ = k₂ <;> simp [pyDictSet, pyDictGet_cons, h2]
    · have h1' : ¬ k = k₁ := fun hh => h1 hh.symm
      by_cases h2 : k₁ = k₂
      · subst h2
        simp [pyDictSet, h1, pyDictGet_cons, h1']
      · simp [pyDictSet, h1, pyDictGet_cons, h2, ih]

theorem pyDictGet_isSome_iff (d : PyDict) (k : PStr) :
    (pyDictGet d k).isSome = true ↔ k ∈ pyDictKeys d := by
  induction d with
  | nil => simp [pyDictGet, pyDictKeys_nil]
  | cons kv rest ih =>
    obtain ⟨k₁, v₁⟩ := kv
    rw [pyDictKeys_cons, pyDictGet_cons]
    by_cases h : k₁ = k
    · subst h
      simp
    · have h' : ¬ k = k₁ := fun hh => h hh.symm
      rw [if_neg h]
      simp [List.mem_cons, h', ih]

theorem pyDictGet_eq_none_iff (d : PyDict) (k : PStr) :
    pyDictGet d k = none ↔ k ∉ pyDictKeys d := by
  rw [← pyDictGet_isSome_iff]
  cases pyDictGet d k <;> simp

theorem pyDictKeys_set (d : PyDict) (k v : PStr) :
    pyDictKeys (pyDictSet d k v) =
      if k ∈ pyDictKeys d then pyDictKeys d else pyDictKeys d ++ [k] := by
  induction d with
  | nil => simp [pyDictSet, pyDictKeys]
  | cons kv rest ih =>
    obtain ⟨k₁, v₁⟩ := kv
    by_cases h : k₁ = k
    · subst h
      simp [pyDictSet, pyDictKeys_cons]
    · have h' : ¬ k = k₁ := fun hh => h hh.symm
      rw [pyDictSet, if_neg h, pyDictKeys_cons, pyDictKeys_cons, ih]
      by_cases hm : k ∈ pyDictKeys rest
      · rw [if_pos hm, if_pos (by simp [List.mem_cons, hm])]
      · rw [if_neg hm, if_neg (by simp [List.mem_cons, h', hm])]
        simp

theorem pyDictLength_set (d : PyDict) (k v : PStr) :
    (pyDictSet d k v).length =
      if k ∈ pyDictKeys d then d.length else d.length + 1 := by
  have hkeys : (pyDictKeys (pyDictSet d k v)).length = (pyDictSet d k v).length := by
    simp [pyDictKeys]
  have hkeys₂ : (pyDictKeys d).length = d.length := by
    simp [pyDictKeys]
  by_cases hm : k ∈ pyDictKeys d
  · rw [if_pos hm, ← hkeys, pyDictKeys_set, if_pos hm, hkeys₂]
  · rw [if_neg hm, ← hkeys, pyDictKeys_set, if_neg hm]
    simp [hkeys₂]

theorem pyDictGet_of_mem (d : PyDict) (hnd : (pyDictKeys d).Nodup) (k v : PStr)
    (hm : (k, v) ∈ d) : pyDictGet d k = some v := by
  induction d with
  | nil => simp at hm
  | cons kv rest ih =>
    obtain ⟨k₁, v₁⟩ := kv
    rw [pyDictKeys_cons, List.nodup_cons] at hnd
    rcases List.mem_cons.mp hm with h | h
    · have h1 : k = k₁ := congrArg Prod.fst h
      have h2 : v = v₁ := congrArg Prod.snd h
      subst h1
      subst h2
      simp [pyDictGet_cons]
    · have hne : ¬ k₁ = k := by
        intro he
        subst he
        exact hnd.1 (by simpa [pyDictKeys] using List.mem_map_of_mem Prod.fst h)
      rw [pyDictGet_cons, if_neg hne]
      exact ih hnd.2 h

theorem pyDictGet_update (d u : PyDict) (hu : (pyDictKeys u).Nodup) (k : PStr) :
    pyDictGet (pyDictUpdate d u) k =
      if k ∈ pyDictKeys u then pyDictGet u k else pyDictGet d k := by
  induction u generalizing d with
  | nil => simp [pyDictUpdate_nil, pyDictKeys_nil]
  | cons kv u' ih =>
    obtain ⟨k₁, v₁⟩ := kv
    rw [pyDictKeys_cons, List.nodup_cons] at hu
    rw [pyDictUpdate_cons, ih _ hu.2, pyDictKeys_cons, pyDictGet_cons]
    by_cases h1 : k ∈ pyDictKeys u'
    · have hne : ¬ k₁ = k := fun he => hu.1 (he ▸ h1)
      rw [if_pos h1, if_pos (List.mem_cons.mpr (Or.inr h1)), if_neg hne]
    · by_cases h2 : k₁ = k
      · subst h2
        rw [if_neg h1, if_pos (List.mem_cons.mpr (Or.inl rfl)), pyDictGet_set,
          if_pos rfl, if_pos rfl]
      · have h2' : ¬ k = k₁ := fun hh => h2 hh.symm
        rw [if_neg h1, if_neg (by simp [List.mem_cons, h2', h1]), pyDictGet_set,
          if_neg h2]

theorem pyDictLength_update (d u : PyDict) (hu : (pyDictKeys u).Nodup)
    (hdisj : ∀ k ∈ pyDictKeys u, k ∉ pyDictKeys d) :
    (pyDictUpdate d u).length = d.length + u.length := by
  induction u generalizing d with
  | nil => simp [pyDictUpdate_nil]
  | cons kv u' ih =>
    obtain ⟨k₁, v₁⟩ := kv
    rw [pyDictKeys_cons, List.nodup_cons] at hu
    have hk₁ : k₁ ∉ pyDictKeys d :=
      hdisj k₁ (by rw [pyDictKeys_cons]; exact List.mem_cons.mpr (Or.inl rfl))
    have hdisj' : ∀ k ∈ pyDictKeys u', k ∉ pyDictKeys (pyDictSet d k₁ v₁) := by
      intro k hkmem
      rw [pyDictKeys_set, if_neg hk₁]
      intro hmem
      rcases List.mem_append.mp hmem with hh | hh
      · exact hdisj k (by rw [pyDictKeys_cons]; exact List.mem_cons.mpr (Or.inr hkmem)) hh
      · exact hu.1 ((List.mem_singleton.mp hh) ▸ hkmem)
    rw [pyDictUpdate_cons, ih _ hu.2 hdisj', pyDictLength_set, if_neg hk₁]
    simp [List.length_cons]
    omega

theorem chunkList_flatten_aux (b n : Nat) :
    ∀ l : List PStr, l.length ≤ n → (chunkList b l).flatten = l := by
  induction n with
  | zero =>
    intro l h
    have : l = [] := by
      cases l with
      | nil => rfl
      | cons x xs => simp at h
    simp [this, chunkList]
  | succ n ih =>
    intro l h
    cases l with
    | nil => simp [chunkList]
    | cons x xs =>
      rw [chunkList, List.flatten_cons, ih (List.drop b xs) (by simp at h ⊢; omega)]
      simp [List.take_append_drop]

theorem chunkList_length_aux (b n : Nat) :
    ∀ l : List PStr, l.length ≤ n →
      (chunkList b l).length = (l.length + b) / (b + 1) := by
  induction n with
  | zero =>
    intro l h
    have hl : l = [] := by
      cases l with
      | nil => rfl
      | cons x xs => simp at h
    subst hl
    have h0 : chunkList b [] = [] := by simp [chunkList]
    have hd : b / (b + 1) = 0 := Nat.div_eq_of_lt (by omega)
    simp [h0, hd]
  | succ n ih =>
    intro l h
    cases l with
    | nil =>
      have h0 : chunkList b [] = [] := by simp [chunkList]
      have hd : b / (b + 1) = 0 := Nat.div_eq_of_lt (by omega)
      simp [h0, hd]
    | cons x xs =>
      rw [chunkList, List.length_cons,
        ih (List.drop b xs) (by simp at h ⊢; omega), List.length_drop]
      by_cases hb : xs.length ≤ b
      · have h0 : xs.length - b = 0 := by omega
        have hd1 : (0 + b) / (b + 1) = 0 := by
          rw [Nat.zero_add]
          exact Nat.div_eq_of_lt (by omega)
        have hd2 : ((x :: xs).length + b) / (b + 1) = 1 :=
          Nat.div_eq_of_lt_le (by simp only [List.length_cons]; omega)
            (by simp only [List.length_cons]; omega)
        rw [h0, hd1, hd2]
      · have h1 : xs.length - b + b = xs.length := by omega
        have h2 : (x :: xs).length + b = xs.length + (b + 1) := by
          simp only [List.length_cons]
          omega
        rw [h1, h2, Nat.add_div_right _ (by omega)]

theorem chunkList_sizes_aux (b n : Nat) :
    ∀ l : List PStr, l.length ≤ n → ∀ c ∈ chunkList b l, c.length ≤ b + 1 := by
  induction n with
  | zero =>
    intro l h c hc
    have : l = [] := by
      cases l with
      | nil => rfl
      | cons x xs => simp at h
    subst this
    simp [chunkList] at hc
  | succ n ih =>
    intro l h c hc
    cases l with
    | nil => simp [chunkList] at hc
    | cons x xs =>
      rw [chunkList] at hc
      rcases List.mem_cons.mp hc with hh | hh
      · subst hh
        simp only [List.length_cons, List.length_take]
        omega
      · exact ih (List.drop b xs) (by simp at h ⊢; omega) c hh

/-- C1: for every corpus and every batch size `B ≥ 1`, `create_file_batches`
succeeds and returns `ceil(n/B)` batches, each of size at most `B`, whose
concatenation is the original corpus in order; an empty corpus yields an empty
batch list. -/
theorem batch_scheduler_partition (files : List PStr) (B : Nat) (hB : 1 ≤ B) :
    ∃ bs, create_file_batches files (B : Int) = Except.ok bs ∧
      bs.length = (files.length + B - 1) / B ∧
      (∀ b ∈ bs, b.length ≤ B) ∧
      bs.flatten = files ∧
      (files = [] → bs = []) := by
  refine ⟨chunkList (B - 1) files, ?_, ?_, ?_, ?_, ?_⟩
  · rw [create_file_batches, if_neg (by omega)]
    have ht : ((B : Int)).toNat - 1 = B - 1 := by omega
    rw [ht]
  · have h1 : files.length + B - 1 = files.length + (B - 1) := by omega
    have h2 : B - 1 + 1 = B := by omega
    rw [h1, ← h2]
    exact chunkList_length_aux (B - 1) files.length files (le_refl _)
  · intro b hb
    have := chunkList_sizes_aux (B - 1) files.length files (le_refl _) b hb
    omega
  · exact chunkList_flatten_aux (B - 1) files.length files (le_refl _)
  · intro h
    subst h
    simp [chunkList]

/-- Witness for C1 at a five-file corpus and batch size 2. -/
theorem batch_scheduler_partition_witness :
    ∃ bs, create_file_batches
        [pstr "a.md", pstr "b.md", pstr "c.md", pstr "d.md", pstr "e.md"]
        ((2 : Nat) : Int) = Except.ok bs ∧
      bs.length = ([pstr "a.md", pstr "b.md", pstr "c.md", pstr "d.md",
        pstr "e.md"].length + 2 - 1) / 2 ∧
      (∀ b ∈ bs, b.length ≤ 2) ∧
      bs.flatten = [pstr "a.md", pstr "b.md", pstr "c.md", pstr "d.md", pstr "e.md"] ∧
      ([pstr "a.md", pstr "b.md", pstr "c.md", pstr "d.md", pstr "e.md"] = ([] : List PStr) →
        bs = []) :=
  batch_scheduler_partition
    [pstr "a.md", pstr "b.md", pstr "c.md", pstr "d.md", pstr "e.md"] 2 (by omega)

/-- C9: every configured batch size `B ≤ 0` is rejected with a
`ConfigurationError` by the batch-creation step before any batch is formed. -/
theorem batch_size_rejected (files : List PStr) (B : Int) (hB : B ≤ 0) :
    create_file_batches files B =
      Except.error ⟨pstr "Batch size must be a positive integer"⟩ := by
  rw [create_file_batches, if_pos hB]

/-- Witness for C9 at batch size 0 on a one-file corpus. -/
theorem batch_size_rejected_witness :
    create_file_batches [pstr "a.md"] 0 =
      Except.error ⟨pstr "Batch size must be a positive integer"⟩ :=
  batch_size_rejected [pstr "a.md"] 0 (by omega)

theorem retryFrom_one (f : Nat → CallOutcome) (a : Nat) : retryFrom f a 1 = (1, f a) := rfl

theorem retryFrom_step (f : Nat → CallOutcome) (a n : Nat) (m : PStr)
    (h : f a = CallOutcome.resourceExhausted m) :
    retryFrom f a (n + 2) =
      ((retryFrom f (a + 1) (n + 1)).1 + 1, (retryFrom f (a + 1) (n + 1)).2) := by
  simp [retryFrom, h]

theorem retryFrom_halt (f : Nat → CallOutcome) (a n : Nat)
    (h : isResourceExhausted (f a) = false) :
    retryFrom f a (n + 2) = (1, f a) := by
  rw [retryFrom]
  cases hfa : f a <;> simp_all [isResourceExhausted]

theorem retryFrom_succeeds (f : Nat → CallOutcome) (v : PStr) :
    ∀ (k a rem : Nat), k + 1 ≤ rem →
      (∀ i, a ≤ i → i < a + k → isResourceExhausted (f i) = true) →
      f (a + k) = CallOutcome.success v →
      retryFrom f a rem = (k + 1, CallOutcome.success v) := by
  intro k
  induction k with
  | zero =>
    intro a rem h1 _ hsucc
    rw [Nat.add_zero] at hsucc
    match rem, h1 with
    | 1, _ => rw [retryFrom_one, hsucc]
    | n + 2, _ =>
      rw [retryFrom_halt f a n (by simp [hsucc, isResourceExhausted]), hsucc]
  | succ k ih =>
    intro a rem h1 hfail hsucc
    obtain ⟨n, rfl⟩ : ∃ n, rem = n + 2 := ⟨rem - 2, by omega⟩
    cases hfa : f a with
    | resourceExhausted m =>
      rw [retryFrom_step f a n m hfa,
        ih (a + 1) (n + 1) (by omega)
          (fun i hi1 hi2 => hfail i (by omega) (by omega))
          (by rw [show a + 1 + k = a + (k + 1) from by omega]; exact hsucc)]
    | success v' =>
      have := hfail a (le_refl a) (by omega)
      rw [hfa] at this
      simp [isResourceExhausted] at this
    | otherFailure m =>
      have := hfail a (le_refl a) (by omega)
      rw [hfa] at this
      simp [isResourceExhausted] at this

theorem retryFrom_all_fail (f : Nat → CallOutcome)
    (hall : ∀ i, isResourceExhausted (f i) = true) :
    ∀ (rem a : Nat), 1 ≤ rem → retryFrom f a rem = (rem, f (a + rem - 1)) := by
  intro rem
  induction rem with
  | zero => intro a h; omega
  | succ n ih =>
    intro a _
    cases n with
    | zero =>
      rw [retryFrom_one]
      simp [show a + 1 - 1 = a from by omega]
    | succ n' =>
      cases hfa : f a with
      | resourceExhausted m =>
        have harg : a + 1 + (n' + 1) - 1 = a + (n' + 1 + 1) - 1 := by omega
        rw [retryFrom_step f a n' m hfa, ih (a + 1) (by omega)]
        simp [harg]
      | success v' =>
        have := hall a
        rw [hfa] at this
        simp [isResourceExhausted] at this
      | otherFailure m =>
        have := hall a
        rw [hfa] at this
        simp [isResourceExhausted] at this

/-- C2: a wrapped call failing with rate-limit errors `k < 5` times and then
succeeding is invoked exactly `k + 1` times and its success value is returned;
a wrapped call that always fails with rate-limit errors is invoked exactly 5
times (the default attempt limit) and its last rate-limit failure is re-raised
to the caller. -/
theorem retry_wrapper_attempt_counts :
    (∀ (f : Nat → CallOutcome) (k : Nat) (v : PStr), k < 5 →
      (∀ i, 1 ≤ i → i ≤ k → isResourceExhausted (f i) = true) →
      f (k + 1) = CallOutcome.success v →
      async_retry_with_exponential_backoff f = (k + 1, CallOutcome.success v)) ∧
    (∀ f : Nat → CallOutcome, (∀ i, isResourceExhausted (f i) = true) →
      async_retry_with_exponential_backoff f = (5, f 5)) := by
  constructor
  · intro f k v hk hfail hsucc
    exact retryFrom_succeeds f v k 1 5 (by omega)
      (fun i hi1 hi2 => hfail i hi1 (by omega))
      (by rw [show 1 + k = k + 1 from by omega]; exact hsucc)
  · intro f hall
    have h := retryFrom_all_fail f hall 5 1 (by omega)
    rw [show 1 + 5 - 1 = 5 from by omega] at h
    exact h

/-- Witness for C2: two rate-limit failures then success gives three
invocations; five rate-limit failures exhausts the five attempts and re-raises
the last failure. -/
theorem retry_wrapper_attempt_counts_witness :
    async_retry_with_exponential_backoff exRetryFailTwice =
      (3, CallOutcome.success (pstr "ok")) ∧
    async_retry_with_exponential_backoff exRetryAlwaysFail = (5, exRetryAlwaysFail 5) := by
  constructor
  · exact retry_wrapper_attempt_counts.1 exRetryFailTwice 2 (pstr "ok") (by omega)
      (fun i h1 h2 => by rw [exRetryFailTwice, if_pos h2]; rfl) (by decide)
  · exact retry_wrapper_attempt_counts.2 exRetryAlwaysFail (fun i => rfl)

/-- C5: the accumulator merge is a key-wise upsert: merging two batch results
with disjoint keys into an empty accumulator yields an accumulator whose size
is the sum of the two sizes and which contains every pair of both; merging any
batch result overwrites exactly its keys with its values and leaves every other
entry unchanged, without error even on a key collision. -/
theorem accumulator_merge_upsert :
    (∀ b₁ b₂ : PyDict, (pyDictKeys b₁).Nodup → (pyDictKeys b₂).Nodup →
      (∀ k ∈ pyDictKeys b₁, k ∉ pyDictKeys b₂) →
      (update_summaries (update_summaries [] b₁) b₂).length = b₁.length + b₂.length ∧
      (∀ p ∈ b₁, pyDictGet (update_summaries (update_summaries [] b₁) b₂) p.1 = some p.2) ∧
      (∀ p ∈ b₂, pyDictGet (update_summaries (update_summaries [] b₁) b₂) p.1 = some p.2)) ∧
    (∀ acc b : PyDict, (pyDictKeys b).Nodup →
      ∀ k, pyDictGet (update_summaries acc b) k =
        if k ∈ pyDictKeys b then pyDictGet b k else pyDictGet acc k) := by
  constructor
  · intro b₁ b₂ hnd₁ hnd₂ hdisj
    have hdisj₂ : ∀ k ∈ pyDictKeys b₂, k ∉ pyDictKeys b₁ :=
      fun k hk₂ hk₁ => hdisj k hk₁ hk₂
    have hget₁ : ∀ k, pyDictGet (update_summaries [] b₁) k =
        if k ∈ pyDictKeys b₁ then pyDictGet b₁ k else none := by
      intro k
      rw [update_summaries, pyDictGet_update [] b₁ hnd₁ k]
      rfl
    have hmem₁ : ∀ k ∈ pyDictKeys b₂, k ∉ pyDictKeys (update_summaries [] b₁) := by
      intro k hk₂
      rw [← pyDictGet_isSome_iff, hget₁ k, if_neg (hdisj₂ k hk₂)]
      simp
    refine ⟨?_, ?_, ?_⟩
    · have hlen₁ : (update_summaries [] b₁).length = b₁.length := by
        rw [update_summaries,
          pyDictLength_update [] b₁ hnd₁ (fun k _ => by simp [pyDictKeys_nil])]
        simp
      rw [update_summaries, pyDictLength_update _ b₂ hnd₂ hmem₁, hlen₁]
    · intro p hp
      have hpk₁ : p.1 ∈ pyDictKeys b₁ := List.mem_map_of_mem _ hp
      rw [update_summaries, pyDictGet_update _ b₂ hnd₂ p.1,
        if_neg (hdisj p.1 hpk₁), hget₁ p.1, if_pos hpk₁]
      exact pyDictGet_of_mem b₁ hnd₁ p.1 p.2 hp
    · intro p hp
      have hpk₂ : p.1 ∈ pyDictKeys b₂ := List.mem_map_of_mem _ hp
      rw [update_summaries, pyDictGet_update _ b₂ hnd₂ p.1, if_pos hpk₂]
      exact pyDictGet_of_mem b₂ hnd₂ p.1 p.2 hp
  · intro acc b hnd k
    rw [update_summaries, pyDictGet_update acc b hnd k]

/-- Witness for C5 at concrete two-entry batch results. -/
theorem accumulator_merge_upsert_witness :
    ((update_summaries (update_summaries [] [(pstr "f1", pstr "s1")])
        [(pstr "f2", pstr "s2")]).length =
      [(pstr "f1", pstr "s1")].length + [(pstr "f2", pstr "s2")].length ∧
      (∀ p ∈ [(pstr "f1", pstr "s1")],
        pyDictGet (update_summaries (update_summaries [] [(pstr "f1", pstr "s1")])
          [(pstr "f2", pstr "s2")]) p.1 = some p.2) ∧
      (∀ p ∈ [(pstr "f2", pstr "s2")],
        pyDictGet (update_summaries (update_summaries [] [(pstr "f1", pstr "s1")])
          [(pstr "f2", pstr "s2")]) p.1 = some p.2)) ∧
    pyDictGet (update_summaries [(pstr "f1", pstr "s1")] [(pstr "f1", pstr "s9")])
        (pstr "f1") =
      (if pstr "f1" ∈ pyDictKeys [(pstr "f1", pstr "s9")] then
        pyDictGet [(pstr "f1", pstr "s9")] (pstr "f1")
      else pyDictGet [(pstr "f1", pstr "s1")] (pstr "f1")) :=
  ⟨accumulator_merge_upsert.1 [(pstr "f1", pstr "s1")] [(pstr "f2", pstr "s2")]
      (by decide) (by decide) (by decide),
    accumulator_merge_upsert.2 [(pstr "f1", pstr "s1")] [(pstr "f1", pstr "s9")]
      (by decide) (pstr "f1")⟩

theorem readFilesLoop_nil (fs : PStr → ReadResult) (st : ReadFilesState) :
    readFilesLoop fs [] st = st := rfl

theorem readFilesLoop_cons_skip (fs : PStr → ReadResult) (p : PStr) (rest : List PStr)
    (st : ReadFilesState) (h : (pyDictGet st.filesContent p).isSome = true) :
    readFilesLoop fs (p :: rest) st = readFilesLoop fs rest st := by
  rw [readFilesLoop, if_pos h]

theorem readFilesLoop_cons_ok (fs : PStr → ReadResult) (p : PStr) (rest : List PStr)
    (st : ReadFilesState) (c : PStr) (h : (pyDictGet st.filesContent p).isSome = false)
    (hfs : fs p = ReadResult.ok c) :
    readFilesLoop fs (p :: rest) st =
      readFilesLoop fs rest ⟨pyDictSet st.filesContent p c, st.status, st.opened ++ [p]⟩ := by
  rw [readFilesLoop, if_neg (by simp [h]), hfs]

theorem readFilesLoop_cons_readFail (fs : PStr → ReadResult) (p : PStr) (rest : List PStr)
    (st : ReadFilesState) (r : PStr) (h : (pyDictGet st.filesContent p).isSome = false)
    (hfs : fs p = ReadResult.readFail r) :
    readFilesLoop fs (p :: rest) st =
      readFilesLoop fs rest
        ⟨pyDictSet st.filesContent p (readFailText ++ r), pstr "warnings", st.opened ++ [p]⟩ := by
  rw [readFilesLoop, if_neg (by simp [h]), hfs]

theorem readFilesLoop_cons_otherFail (fs : PStr → ReadResult) (p : PStr) (rest : List PStr)
    (st : ReadFilesState) (r : PStr) (h : (pyDictGet st.filesContent p).isSome = false)
    (hfs : fs p = ReadResult.otherFail r) :
    readFilesLoop fs (p :: rest) st =
      readFilesLoop fs rest
        ⟨pyDictSet st.filesContent p (unexpectedFailText ++ r), pstr "warnings",
          st.opened ++ [p]⟩ := by
  rw [readFilesLoop, if_neg (by simp [h]), hfs]

theorem readContentFor_ok (fs : PStr → ReadResult) (p c : PStr) (h : fs p = ReadResult.ok c) :
    readContentFor fs p = c := by
  rw [readContentFor, h]

theorem readContentFor_readFail (fs : PStr → ReadResult) (p r : PStr)
    (h : fs p = ReadResult.readFail r) : readContentFor fs p = readFailText ++ r := by
  rw [readContentFor, h]

theorem readContentFor_otherFail (fs : PStr → ReadResult) (p r : PStr)
    (h : fs p = ReadResult.otherFail r) : readContentFor fs p = unexpectedFailText ++ r := by
  rw [readContentFor, h]

theorem readFilesLoop_get (fs : PStr → ReadResult) (paths : List PStr)
    (st : ReadFilesState) (k : PStr) :
    pyDictGet (readFilesLoop fs paths st).filesContent k =
      if (pyDictGet st.filesContent k).isSome = true then pyDictGet st.filesContent k
      else if k ∈ paths then some (readContentFor fs k) else none := by
  induction paths generalizing st with
  | nil =>
    rw [readFilesLoop_nil]
    cases h : pyDictGet st.filesContent k <;> simp [h]
  | cons p rest ih =>
    by_cases hskip : (pyDictGet st.filesContent p).isSome = true
    · rw [readFilesLoop_cons_skip fs p rest st hskip, ih st]
      by_cases hk : (pyDictGet st.filesContent k).isSome = true
      · simp [hk]
      · have hkp : ¬ k = p := fun he => hk (he ▸ hskip)
        simp [hk, List.mem_cons, hkp]
    · have hskip' : (pyDictGet st.filesContent p).isSome = false := by
        simpa using hskip
      have key : ∀ c' st', st' = (⟨pyDictSet st.filesContent p c', st'.status,
          st'.opened⟩ : ReadFilesState) → c' = readContentFor fs p →
          pyDictGet (readFilesLoop fs rest st').filesContent k =
          if (pyDictGet st.filesContent k).isSome = true then pyDictGet st.filesContent k
          else if k ∈ p :: rest then some (readContentFor fs k) else none := by
        intro c' st' hst' hc'
        rw [ih st', hst']
        by_cases hkp : k = p
        · subst hkp
          simp [pyDictGet_set, hskip', hc']
        · have hkp' : ¬ p = k := fun he => hkp he.symm
          simp [pyDictGet_set, hkp', List.mem_cons, hkp]
      cases hfs : fs p with
      | ok c =>
        rw [readFilesLoop_cons_ok fs p rest st c hskip' hfs]
        exact key c _ rfl (readContentFor_ok fs p c hfs).symm
      | readFail r =>
        rw [readFilesLoop_cons_readFail fs p rest st r hskip' hfs]
        exact key (readFailText ++ r) _ rfl (readContentFor_readFail fs p r hfs).symm
      | otherFail r =>
        rw [readFilesLoop_cons_otherFail fs p rest st r hskip' hfs]
        exact key (unexpectedFailText ++ r) _ rfl (readContentFor_otherFail fs p r hfs).symm

theorem readFilesLoop_status (fs : PStr → ReadResult) (paths : List PStr)
    (st : ReadFilesState) :
    (readFilesLoop fs paths st).status =
      if st.status = pstr "warnings" ∨ ∃ p ∈ paths,
          (pyDictGet st.filesContent p).isSome = false ∧ isReadFailure (fs p) = true
      then pstr "warnings" else st.status := by
  induction paths generalizing st with
  | nil =>
    rw [readFilesLoop_nil]
    by_cases h : st.status = pstr "warnings" <;> simp [h]
  | cons p rest ih =>
    by_cases hskip : (pyDictGet st.filesContent p).isSome = true
    · rw [readFilesLoop_cons_skip fs p rest st hskip, ih st]
      refine if_congr ?_ rfl rfl
      constructor
      · rintro (h | ⟨q, hq, hq2⟩)
        · exact Or.inl h
        · exact Or.inr ⟨q, List.mem_cons.mpr (Or.inr hq), hq2⟩
      · rintro (h | ⟨q, hq, hq2⟩)
        · exact Or.inl h
        · rcases List.mem_cons.mp hq with rfl | hq'
          · rw [hskip] at hq2
            simp at hq2
          · exact Or.inr ⟨q, hq', hq2⟩
    · have hskip' : (pyDictGet st.filesContent p).isSome = false := by simpa using hskip
      cases hfs : fs p with
      | ok c =>
        rw [readFilesLoop_cons_ok fs p rest st c hskip' hfs, ih]
        refine if_congr ?_ rfl rfl
        simp only []
        constructor
        · rintro (h | ⟨q, hq, hq2, hq3⟩)
          · exact Or.inl h
          · by_cases hqp : q = p
            · subst hqp
              rw [hfs] at hq3
              simp [isReadFailure] at hq3
            · have hqp' : ¬ p = q := fun he => hqp he.symm
              rw [pyDictGet_set] at hq2
              rw [if_neg hqp'] at hq2
              exact Or.inr ⟨q, List.mem_cons.mpr (Or.inr hq), hq2, hq3⟩
        · rintro (h | ⟨q, hq, hq2, hq3⟩)
          · exact Or.inl h
          · rcases List.mem_cons.mp hq with rfl | hq'
            · rw [hfs] at hq3
              simp [isReadFailure] at hq3
            · by_cases hqp : p = q
              · subst hqp
                rw [hfs] at hq3
                simp [isReadFailure] at hq3
              · refine Or.inr ⟨q, hq', ?_, hq3⟩
                rw [pyDictGet_set, if_neg hqp]
                exact hq2
      | readFail r =>
        rw [readFilesLoop_cons_readFail fs p rest st r hskip' hfs, ih]
        rw [if_pos (Or.inl rfl), if_pos (Or.inr ⟨p, List.mem_cons.mpr (Or.inl rfl),
          hskip', by rw [hfs]; rfl⟩)]
      | otherFail r =>
        rw [readFilesLoop_cons_otherFail fs p rest st r hskip' hfs, ih]
        rw [if_pos (Or.inl rfl), if_pos (Or.inr ⟨p, List.mem_cons.mpr (Or.inl rfl),
          hskip', by rw [hfs]; rfl⟩)]

theorem readFilesLoop_opened (fs : PStr → ReadResult) (paths : List PStr)
    (st : ReadFilesState) (q : PStr) :
    q ∈ (readFilesLoop fs paths st).opened ↔
      q ∈ st.opened ∨ (q ∈ paths ∧ (pyDictGet st.filesContent q).isSome = false) := by
  induction paths generalizing st with
  | nil =>
    rw [readFilesLoop_nil]
    simp
  | cons p rest ih =>
    by_cases hskip : (pyDictGet st.filesContent p).isSome = true
    · rw [readFilesLoop_cons_skip fs p rest st hskip, ih st]
      constructor
      · rintro (h | ⟨hq, hq2⟩)
        · exact Or.inl h
        · exact Or.inr ⟨List.mem_cons.mpr (Or.inr hq), hq2⟩
      · rintro (h | ⟨hq, hq2⟩)
        · exact Or.inl h
        · rcases List.mem_cons.mp hq with rfl | hq'
          · rw [hskip] at hq2
            simp at hq2
          · exact Or.inr ⟨hq', hq2⟩
    · have hskip' : (pyDictGet st.filesContent p).isSome = false := by simpa using hskip
      have step : ∀ c' s', (q ∈ (readFilesLoop fs rest
            (⟨pyDictSet st.filesContent p c', s', st.opened ++ [p]⟩ : ReadFilesState)).opened ↔
          q ∈ st.opened ∨ (q ∈ p :: rest ∧ (pyDictGet st.filesContent q).isSome = false)) := by
        intro c' s'
        rw [ih]
        constructor
        · rintro (h | ⟨hq, hq2⟩)
          · rcases List.mem_append.mp h with h' | h'
            · exact Or.inl h'
            · rw [List.mem_singleton.mp h']
              exact Or.inr ⟨List.mem_cons.mpr (Or.inl rfl), hskip'⟩
          · by_cases hqp : q = p
            · exact Or.inr ⟨List.mem_cons.mpr (Or.inl hqp), hqp ▸ hskip'⟩
            · have hqp' : ¬ p = q := fun he => hqp he.symm
              rw [pyDictGet_set, if_neg hqp'] at hq2
              exact Or.inr ⟨List.mem_cons.mpr (Or.inr hq), hq2⟩
        · rintro (h | ⟨hq, hq2⟩)
          · exact Or.inl (List.mem_append.mpr (Or.inl h))
          · by_cases hqp : q = p
            · exact Or.inl (List.mem_append.mpr (Or.inr (List.mem_singleton.mpr hqp)))
            · have hqp' : ¬ p = q := fun he => hqp he.symm
              rcases List.mem_cons.mp hq with rfl | hq'
              · exact absurd rfl hqp
              · refine Or.inr ⟨hq', ?_⟩
                rw [pyDictGet_set, if_neg hqp']
                exact hq2
      cases hfs : fs p with
      | ok c =>
        rw [readFilesLoop_cons_ok fs p rest st c hskip' hfs]
        exact step c st.status
      | readFail r =>
        rw [readFilesLoop_cons_readFail fs p rest st r hskip' hfs]
        exact step (readFailText ++ r) (pstr "warnings")
      | otherFail r =>
        rw [readFilesLoop_cons_otherFail fs p rest st r hskip' hfs]
        exact step (unexpectedFailText ++ r) (pstr "warnings")

theorem pyDictKeys_set_nodup (d : PyDict) (k v : PStr)
    (h : (pyDictKeys d).Nodup) : (pyDictKeys (pyDictSet d k v)).Nodup := by
  rw [pyDictKeys_set]
  by_cases hm : k ∈ pyDictKeys d
  · rw [if_pos hm]
    exact h
  · rw [if_neg hm]
    simp [List.nodup_append, h, hm]

theorem readFilesLoop_keysNodup (fs : PStr → ReadResult) (paths : List PStr)
    (st : ReadFilesState) (h : (pyDictKeys st.filesContent).Nodup) :
    (pyDictKeys (readFilesLoop fs paths st).filesContent).Nodup := by
  induction paths generalizing st with
  | nil => rw [readFilesLoop_nil]; exact h
  | cons p rest ih =>
    by_cases hskip : (pyDictGet st.filesContent p).isSome = true
    · rw [readFilesLoop_cons_skip fs p rest st hskip]
      exact ih st h
    · have hskip' : (pyDictGet st.filesContent p).isSome = false := by simpa using hskip
      cases hfs : fs p with
      | ok c =>
        rw [readFilesLoop_cons_ok fs p rest st c hskip' hfs]
        exact ih _ (pyDictKeys_set_nodup _ _ _ h)
      | readFail r =>
        rw [readFilesLoop_cons_readFail fs p rest st r hskip' hfs]
        exact ih _ (pyDictKeys_set_nodup _ _ _ h)
      | otherFail r =>
        rw [readFilesLoop_cons_otherFail fs p rest st r hskip' hfs]
        exact ih _ (pyDictKeys_set_nodup _ _ _ h)

/-- C10 (implicit): `read_files` first resets the `files_content` map, so its
result does not depend on the prior map at all; afterwards `files_content`
holds exactly one entry per file of the current batch (its content, or the
error placeholder on a failed read) and nothing from any earlier batch; and
the avoid-re-reading check never prevents a file of the batch from being
opened during the call. -/
theorem read_files_resets_files_content (fs : PStr → ReadResult) (batch : List PStr)
    (prior prior₂ : PyDict) :
    read_files fs batch prior = read_files fs batch prior₂ ∧
    (∀ k, pyDictGet (read_files fs batch prior).filesContent k =
      if k ∈ batch then some (readContentFor fs k) else none) ∧
    (pyDictKeys (read_files fs batch prior).filesContent).Nodup ∧
    (∀ p ∈ batch, p ∈ (read_files fs batch prior).opened) := by
  refine ⟨rfl, ?_, ?_, ?_⟩
  · intro k
    rw [read_files, readFilesLoop_get]
    simp [pyDictGet]
  · exact readFilesLoop_keysNodup fs batch _ (by simp [pyDictKeys_nil])
  · intro p hp
    rw [read_files, readFilesLoop_opened]
    exact Or.inr ⟨hp, by simp [pyDictGet]⟩

/-- Witness for C10: a two-file batch with a stale prior map still yields a
fresh two-entry map and both files are opened. -/
theorem read_files_resets_files_content_witness :
    read_files exFsAllOk [pstr "a.md", pstr "b.md"] [(pstr "old.md", pstr "stale")] =
      read_files exFsAllOk [pstr "a.md", pstr "b.md"] [] ∧
    (∀ k, pyDictGet (read_files exFsAllOk [pstr "a.md", pstr "b.md"]
        [(pstr "old.md", pstr "stale")]).filesContent k =
      if k ∈ [pstr "a.md", pstr "b.md"] then some (readContentFor exFsAllOk k) else none) ∧
    (pyDictKeys (read_files exFsAllOk [pstr "a.md", pstr "b.md"]
        [(pstr "old.md", pstr "stale")]).filesContent).Nodup ∧
    (∀ p ∈ [pstr "a.md", pstr "b.md"], p ∈ (read_files exFsAllOk [pstr "a.md", pstr "b.md"]
        [(pstr "old.md", pstr "stale")]).opened) :=
  read_files_resets_files_content exFsAllOk [pstr "a.md", pstr "b.md"]
    [(pstr "old.md", pstr "stale")] []

/-- C3 (amended): a failed read does not fail the batch: the failing file still
gets a `files_content` entry whose value is the diagnostic placeholder built
from the fixed prefix "Error: Could not read file. Reason: " followed by the
specific failure reason, every other file of the batch is still read, and the
returned status is "warnings". -/
theorem read_failure_degrades_to_warnings (fs : PStr → ReadResult) (batch : List PStr)
    (f r : PStr) (hf : f ∈ batch) (hfail : fs f = ReadResult.readFail r) :
    pyDictGet (read_files fs batch []).filesContent f = some (readFailText ++ r) ∧
    (∀ g ∈ batch, pyDictGet (read_files fs batch []).filesContent g =
      some (readContentFor fs g)) ∧
    (read_files fs batch []).status = pstr "warnings" := by
  have hget : ∀ g ∈ batch, pyDictGet (read_files fs batch []).filesContent g =
      some (readContentFor fs g) := by
    intro g hg
    rw [read_files, readFilesLoop_get]
    simp [pyDictGet, hg]
  refine ⟨?_, hget, ?_⟩
  · rw [hget f hf, readContentFor_readFail fs f r hfail]
  · rw [read_files, readFilesLoop_status]
    rw [if_pos (Or.inr ⟨f, hf, by simp [pyDictGet], by rw [hfail]; rfl⟩)]

/-- Witness for C3: a batch of two files where the second read raises a
permission error; the placeholder entry is present, the other file is read,
and the status is "warnings". -/
theorem read_failure_degrades_to_warnings_witness :
    pyDictGet (read_files exFsFailGuide [pstr "/repo/README.md", pstr "/repo/docs/guide.md"]
        []).filesContent (pstr "/repo/docs/guide.md") =
      some (readFailText ++ pstr "Permission denied: /repo/docs/guide.md") ∧
    (∀ g ∈ [pstr "/repo/README.md", pstr "/repo/docs/guide.md"],
      pyDictGet (read_files exFsFailGuide
        [pstr "/repo/README.md", pstr "/repo/docs/guide.md"] []).filesContent g =
      some (readContentFor exFsFailGuide g)) ∧
    (read_files exFsFailGuide [pstr "/repo/README.md", pstr "/repo/docs/guide.md"]
        []).status = pstr "warnings" :=
  read_failure_degrades_to_warnings exFsFailGuide
    [pstr "/repo/README.md", pstr "/repo/docs/guide.md"]
    (pstr "/repo/docs/guide.md")
    (pstr "Permission denied: /repo/docs/guide.md")
    (by decide) (by decide)

/-- Counterexample for C3 as stated: the placeholder stored for a failed read
is not one fixed string — it embeds the dynamic failure reason, so two
different failures of the same file produce two different stored values. -/
theorem read_failure_placeholder_not_fixed :
    pyDictGet (read_files exFsReasonA [pstr "a.md"] []).filesContent (pstr "a.md") ≠
    pyDictGet (read_files exFsReasonB [pstr "a.md"] []).filesContent (pstr "a.md") := by
  decide

theorem singleBatchProcessor_batches (fs : PStr → ReadResult) (summarise : PyDict → PyDict)
    (st : SessionState) : (singleBatchProcessor fs summarise st).batches = st.batches := rfl

theorem process_batch_selection_cons (st : SessionState) (b : List PStr)
    (rest : List (List PStr)) (h : st.batches = b :: rest) :
    process_batch_selection st =
      (⟨rest, b, st.loopIteration + 1, st.filesContent, st.allSummaries⟩,
        false, pstr "batch_selected") := by
  rw [process_batch_selection, h]

theorem loopAgentRun_exceeds (fs : PStr → ReadResult) (summarise : PyDict → PyDict) :
    ∀ (n : Nat) (st : SessionState), n < st.batches.length →
      (loopAgentRun fs summarise n st).2 = LoopExit.maxIterationsReached ∧
      (loopAgentRun fs summarise n st).1.batches.length = st.batches.length - n := by
  intro n
  induction n with
  | zero =>
    intro st _
    exact ⟨rfl, by simp [loopAgentRun]⟩
  | succ n ih =>
    intro st h
    obtain ⟨b, rest, hb⟩ : ∃ b rest, st.batches = b :: rest := by
      cases hbs : st.batches with
      | nil => rw [hbs] at h; simp at h
      | cons b rest => exact ⟨b, rest, rfl⟩
    rw [loopAgentRun, process_batch_selection_cons st b rest hb]
    simp only [Bool.false_eq_true, if_false]
    have hb' : (singleBatchProcessor fs summarise
        ⟨rest, b, st.loopIteration + 1, st.filesContent, st.allSummaries⟩).batches = rest := by
      rw [singleBatchProcessor_batches]
    have hlen : n < (singleBatchProcessor fs summarise
        ⟨rest, b, st.loopIteration + 1, st.filesContent, st.allSummaries⟩).batches.length := by
      rw [hb']
      rw [hb] at h
      simp at h
      omega
    obtain ⟨h1, h2⟩ := ih _ hlen
    refine ⟨h1, ?_⟩
    rw [h2, hb', hb]
    simp only [List.length_cons]
    omega

/-- C8 (amended): when the batch queue is longer than the 200-iteration
ceiling, the batch-processing loop stops after exactly 200 iterations with the
loop construct's ordinary max-iterations exit — no error is raised or
reported — leaving the remaining batches unprocessed. -/
theorem iteration_ceiling_exits_silently (fs : PStr → ReadResult)
    (summarise : PyDict → PyDict) (st : SessionState)
    (h : 200 < st.batches.length) :
    (batch_processing_loop fs summarise st).2 = LoopExit.maxIterationsReached ∧
    (batch_processing_loop fs summarise st).1.batches.length = st.batches.length - 200 :=
  loopAgentRun_exceeds fs summarise 200 st h

/-- Witness for C8 at a queue of 201 one-file batches. -/
theorem iteration_ceiling_exits_silently_witness :
    (batch_processing_loop exFsAllOk exSummariseId exState201).2 =
      LoopExit.maxIterationsReached ∧
    (batch_processing_loop exFsAllOk exSummariseId exState201).1.batches.length =
      exState201.batches.length - 200 :=
  iteration_ceiling_exits_silently exFsAllOk exSummariseId exState201
    (by rw [exState201]; simp)

/-- Counterexample for C8 as stated: with 201 batches the loop exceeds its
ceiling, yet the run does not end in a failed ABORTED state with a reported
error — the loop construct returns its ordinary max-iterations exit and one
unprocessed batch silently remains. -/
theorem iteration_ceiling_no_abort_counterexample :
    (batch_processing_loop exFsAllOk exSummariseId exState201).2 =
      LoopExit.maxIterationsReached ∧
    (batch_processing_loop exFsAllOk exSummariseId exState201).1.batches =
      [[pstr "f.md"]] := by
  constructor
  · rfl
  · rfl

theorem startsTB_fence (r : PStr) : startsTB (btick :: btick :: btick :: r) = true := by
  simp [startsTB, fenceTB]

theorem startsTB_cons_ne (c : Char) (r : PStr) (h : ¬ c = btick) :
    startsTB (c :: r) = false := by
  simp [startsTB, fenceTB, List.take_succ_cons, h]

theorem hasTB_cons (c : Char) (r : PStr) :
    hasTB (c :: r) = (startsTB (c :: r) || hasTB r) := rfl

theorem takeUntilTB_fence (r : PStr) :
    takeUntilTB (btick :: btick :: btick :: r) = some [] := by
  rw [takeUntilTB, if_pos (startsTB_fence r)]

theorem takeUntilTB_append_noBtick (l r : PStr) (h : btick ∉ l) :
    takeUntilTB (l ++ r) = (takeUntilTB r).map (fun g => l ++ g) := by
  induction l with
  | nil =>
    simp only [List.nil_append]
    cases takeUntilTB r <;> simp
  | cons c cs ih =>
    have hc : ¬ c = btick := fun he => h (he ▸ List.mem_cons_self c cs)
    rw [List.cons_append, takeUntilTB, if_neg (by simp [startsTB_cons_ne _ _ hc]),
      ih (fun hm => h (List.mem_cons.mpr (Or.inr hm)))]
    cases takeUntilTB r <;> simp

theorem dropWhile_append_all (p : Char → Bool) (l r : PStr) (h : ∀ c ∈ l, p c = true) :
    (l ++ r).dropWhile p = r.dropWhile p := by
  induction l with
  | nil => rfl
  | cons c cs ih =>
    rw [List.cons_append, List.dropWhile_cons, if_pos (h c (List.mem_cons_self c cs))]
    exact ih (fun x hx => h x (List.mem_cons.mpr (Or.inr hx)))

theorem dropWhile_cons_neg (p : Char → Bool) (c : Char) (r : PStr) (h : p c = false) :
    (c :: r).dropWhile p = c :: r := by
  rw [List.dropWhile_cons, if_neg (by simp [h])]

theorem lstripWs_of_head (body : PStr)
    (h : ∀ c, body.head? = some c → isPyWs c = false) : lstripWs body = body := by
  cases body with
  | nil => rfl
  | cons c cs => exact dropWhile_cons_neg isPyWs c cs (h c rfl)

theorem rstripWs_of_getLast (body : PStr)
    (h : ∀ c, body.getLast? = some c → isPyWs c = false) : rstripWs body = body := by
  rw [rstripWs]
  cases hb : body.reverse with
  | nil =>
    have : body = [] := by simpa using congrArg List.reverse hb
    simp [this]
  | cons x xs =>
    have hx : isPyWs x = false := by
      refine h x ?_
      rw [← List.head?_reverse, hb]
      rfl
    rw [dropWhile_cons_neg isPyWs x xs hx, ← hb, List.reverse_reverse]

theorem pyStrip_of_stripped (body : PStr)
    (h1 : ∀ c, body.head? = some c → isPyWs c = false)
    (h2 : ∀ c, body.getLast? = some c → isPyWs c = false) : pyStrip body = body := by
  rw [pyStrip, lstripWs_of_head body h1, rstripWs_of_getLast body h2]

theorem rstripWs_append_newline (body : PStr)
    (h : ∀ c, body.getLast? = some c → isPyWs c = false) :
    rstripWs (body ++ ['\n']) = body := by
  rw [rstripWs, List.reverse_append]
  have h1 : (['\n'] : PStr).reverse = ['\n'] := rfl
  rw [h1, List.singleton_append, List.dropWhile_cons, if_pos (by rfl)]
  cases hb : body.reverse with
  | nil =>
    have : body = [] := by simpa using congrArg List.reverse hb
    simp [this]
  | cons x xs =>
    have hx : isPyWs x = false := by
      refine h x ?_
      rw [← List.head?_reverse, hb]
      rfl
    rw [dropWhile_cons_neg isPyWs x xs hx, ← hb, List.reverse_reverse]

theorem matchFence_fenced (lang body : PStr)
    (hlang : ∀ c ∈ lang, isPyWordChar c = true)
    (hbody : btick ∉ body)
    (hhead : ∀ c, body.head? = some c → isPyWs c = false)
    (hlast : ∀ c, body.getLast? = some c → isPyWs c = false) :
    matchFence (lang ++ '\n' :: (body ++ '\n' :: fenceTB)) = some body := by
  rw [matchFence]
  have hword : (lang ++ '\n' :: (body ++ '\n' :: fenceTB)).dropWhile isPyWordChar =
      '\n' :: (body ++ '\n' :: fenceTB) := by
    rw [dropWhile_append_all isPyWordChar lang _ hlang]
    exact dropWhile_cons_neg isPyWordChar '\n' _ rfl
  rw [hword, List.dropWhile_cons, if_pos (by rfl)]
  cases body with
  | nil =>
    have : (([] : PStr) ++ '\n' :: fenceTB).dropWhile isPyWs = fenceTB := by
      rw [List.nil_append, List.dropWhile_cons, if_pos (by rfl)]
      rw [fenceTB]
      exact dropWhile_cons_neg isPyWs btick _ rfl
    rw [this, fenceTB, takeUntilTB_fence]
    rfl
  | cons hd tl =>
    have hws : ((hd :: tl) ++ '\n' :: fenceTB).dropWhile isPyWs =
        (hd :: tl) ++ '\n' :: fenceTB := by
      rw [List.cons_append]
      exact dropWhile_cons_neg isPyWs hd _ (hhead hd rfl)
    rw [hws, List.append_cons (hd :: tl) '\n' fenceTB, fenceTB,
      takeUntilTB_append_noBtick _ _
        (by
          intro hmem
          rcases List.mem_append.mp hmem with hm | hm
          · exact hbody hm
          · rw [List.mem_singleton] at hm
            exact absurd hm (by decide)),
      takeUntilTB_fence]
    have hr := rstripWs_append_newline (hd :: tl) hlast
    simp only [Option.map_some', List.append_nil, Option.some.injEq, List.cons_append] at hr ⊢
    simpa using hr

theorem reSearchFence_fenced (lang body : PStr)
    (hlang : ∀ c ∈ lang, isPyWordChar c = true)
    (hbody : btick ∉ body)
    (hhead : ∀ c, body.head? = some c → isPyWs c = false)
    (hlast : ∀ c, body.getLast? = some c → isPyWs c = false) :
    reSearchFence (fenceTB ++ lang ++ '\n' :: (body ++ '\n' :: fenceTB)) = some body := by
  have hshape : fenceTB ++ lang ++ '\n' :: (body ++ '\n' :: fenceTB) =
      btick :: (btick :: btick :: (lang ++ '\n' :: (body ++ '\n' :: fenceTB))) := rfl
  rw [hshape, reSearchFence]
  rw [if_pos (startsTB_fence _)]
  have hdrop : (btick :: btick :: (lang ++ '\n' :: (body ++ '\n' :: fenceTB))).drop 2 =
      lang ++ '\n' :: (body ++ '\n' :: fenceTB) := rfl
  rw [hdrop, matchFence_fenced lang body hlang hbody hhead hlast]

theorem reSearchFence_none (t : PStr) (h : hasTB t = false) : reSearchFence t = none := by
  induction t with
  | nil => rfl
  | cons c rest ih =>
    rw [hasTB_cons] at h
    simp only [Bool.or_eq_false_iff] at h
    rw [reSearchFence, if_neg (by simp [h.1])]
    exact ih h.2

/-- C4: a response text consisting of a single wrapping fenced block (an
opening marker line with a language tag and a closing marker line) is cleaned
to exactly the content between the markers, surrounding whitespace stripped;
a response text containing no fence marker is returned unchanged. -/
theorem response_sanitizer_strips_fence :
    (∀ lang body : PStr, (∀ c ∈ lang, isPyWordChar c = true) → btick ∉ body →
      (∀ c, body.head? = some c → isPyWs c = false) →
      (∀ c, body.getLast? = some c → isPyWs c = false) →
      clean_json_callback (fenceTB ++ lang ++ '\n' :: (body ++ '\n' :: fenceTB)) = body) ∧
    (∀ text : PStr, hasTB text = false → clean_json_callback text = text) := by
  constructor
  · intro lang body h1 h2 h3 h4
    rw [clean_json_callback, reSearchFence_fenced lang body h1 h2 h3 h4]
    exact pyStrip_of_stripped body h3 h4
  · intro t h
    rw [clean_json_callback, reSearchFence_none t h]

/-- Witness for C4 at the spec's example: a JSON object wrapped in a
```` ```json ```` fence is unwrapped, and the bare JSON object is unchanged. -/
theorem response_sanitizer_strips_fence_witness :
    clean_json_callback (fenceTB ++ pstr "json" ++ '\n' ::
        (pstr "\x7b\"a\":\"b\"\x7d" ++ '\n' :: fenceTB)) = pstr "\x7b\"a\":\"b\"\x7d" ∧
    clean_json_callback (pstr "\x7b\"a\":\"b\"\x7d") = pstr "\x7b\"a\":\"b\"\x7d" :=
  ⟨response_sanitizer_strips_fence.1 (pstr "json") (pstr "\x7b\"a\":\"b\"\x7d")
      (by decide) (by decide) (by decide) (by decide),
    response_sanitizer_strips_fence.2 (pstr "\x7b\"a\":\"b\"\x7d") (by decide)⟩

theorem mem_of_getLastEq (l : PStr) (c : Char) (h : l.getLast? = some c) : c ∈ l := by
  rw [← List.head?_reverse] at h
  have hm : c ∈ l.reverse := by
    cases hr : l.reverse with
    | nil => rw [hr] at h; simp at h
    | cons x xs =>
      rw [hr] at h
      simp at h
      rw [← h]
      exact List.mem_cons_self x xs
  simpa using hm

theorem splitSlash_nil : splitSlash [] = [[]] := rfl

theorem splitSlash_cons_slash (rest : PStr) :
    splitSlash ('/' :: rest) = [] :: splitSlash rest := by
  rw [splitSlash, if_pos rfl]

theorem splitSlash_ne_nil (l : PStr) : splitSlash l ≠ [] := by
  induction l with
  | nil => simp [splitSlash_nil]
  | cons c cs ih =>
    rw [splitSlash]
    by_cases hc : c = '/'
    · rw [if_pos hc]
      simp
    · rw [if_neg hc]
      cases h : splitSlash cs with
      | nil => exact absurd h ih
      | cons g gs => simp

theorem splitSlash_append_slash (a b : PStr) :
    splitSlash (a ++ '/' :: b) = splitSlash a ++ splitSlash b := by
  induction a with
  | nil =>
    rw [List.nil_append, splitSlash_cons_slash, splitSlash_nil, List.singleton_append]
  | cons c cs ih =>
    by_cases hc : c = '/'
    · subst hc
      rw [List.cons_append, splitSlash_cons_slash, splitSlash_cons_slash, ih,
        List.cons_append]
    · cases h : splitSlash cs with
      | nil => exact absurd h (splitSlash_ne_nil cs)
      | cons g gs =>
        rw [List.cons_append, splitSlash, if_neg hc, ih, h, List.cons_append,
          splitSlash, if_neg hc, h]
        rfl

theorem splitSlash_noSlash (g : PStr) (h : '/' ∉ g) : splitSlash g = [g] := by
  induction g with
  | nil => rfl
  | cons c cs ih =>
    have hc : ¬ c = '/' := fun he => h (he ▸ List.mem_cons_self c cs)
    rw [splitSlash, if_neg hc, ih (fun hm => h (List.mem_cons.mpr (Or.inr hm)))]

theorem joinSlash_nil : joinSlash [] = [] := rfl

theorem joinSlash_single (g : PStr) : joinSlash [g] = g := rfl

theorem joinSlash_cons_cons (g h : PStr) (t : List PStr) :
    joinSlash (g :: h :: t) = g ++ '/' :: joinSlash (h :: t) := rfl

theorem splitSlash_joinSlash (l : List PStr) (hl : l ≠ [])
    (h : ∀ g ∈ l, '/' ∉ g) : splitSlash (joinSlash l) = l := by
  induction l with
  | nil => exact absurd rfl hl
  | cons g rest ih =>
    cases rest with
    | nil =>
      rw [joinSlash_single]
      exact splitSlash_noSlash g (h g (List.mem_cons_self g []))
    | cons h2 t =>
      rw [joinSlash_cons_cons, splitSlash_append_slash,
        splitSlash_noSlash g (h g (List.mem_cons_self g (h2 :: t))),
        ih (by simp) (fun g' hg' => h g' (List.mem_cons.mpr (Or.inr hg'))),
        List.singleton_append]

theorem pathComps_joinSlash (l : List PStr) (hl : l ≠ [])
    (h : ∀ g ∈ l, g ≠ [] ∧ '/' ∉ g) : pathComps (joinSlash l) = l := by
  rw [pathComps, splitSlash_joinSlash l hl (fun g hg => (h g hg).2)]
  apply List.filter_eq_self.mpr
  intro g hg
  simp [List.isEmpty_iff, (h g hg).1]

theorem pathComps_append_slash (a b : PStr) :
    pathComps (a ++ '/' :: b) = pathComps a ++ pathComps b := by
  rw [pathComps, pathComps, pathComps, splitSlash_append_slash, List.filter_append]

theorem commonPrefixLen_self_append (s t : List PStr) :
    commonPrefixLen s (s ++ t) = s.length := by
  induction s with
  | nil => rfl
  | cons a as ih =>
    rw [List.cons_append, commonPrefixLen, if_pos rfl, ih]
    rfl

theorem commonPrefixLen_self (s : List PStr) : commonPrefixLen s s = s.length := by
  have h := commonPrefixLen_self_append s []
  rwa [List.append_nil] at h

theorem pyRelpath_of_comps (root sub : PStr) (hsub : pathComps sub ≠ []) :
    pyRelpath (root ++ '/' :: sub) root = joinSlash (pathComps sub) := by
  rw [pyRelpath, pathComps_append_slash, commonPrefixLen_self_append,
    Nat.sub_self, List.replicate_zero, List.nil_append, List.drop_left]
  rw [if_neg (by simp [List.isEmpty_iff, hsub])]

theorem pyRelpath_self (root : PStr) : pyRelpath root root = pstr "." := by
  rw [pyRelpath, commonPrefixLen_self, Nat.sub_self, List.replicate_zero,
    List.nil_append, List.drop_length]
  rfl

theorem joinSlash_ne_nil (l : List PStr) (hl : l ≠ []) (h0 : ∀ g ∈ l, g ≠ []) :
    joinSlash l ≠ [] := by
  cases l with
  | nil => exact absurd rfl hl
  | cons g rest =>
    cases rest with
    | nil =>
      rw [joinSlash_single]
      exact h0 g (List.mem_cons_self g [])
    | cons h2 t =>
      rw [joinSlash_cons_cons]
      have hg : g ≠ [] := h0 g (List.mem_cons_self g (h2 :: t))
      simp [hg]

theorem joinSlash_append_single (l : List PStr) (x : PStr) (hl : l ≠ []) :
    joinSlash (l ++ [x]) = joinSlash l ++ '/' :: x := by
  induction l with
  | nil => exact absurd rfl hl
  | cons g rest ih =>
    cases rest with
    | nil =>
      rw [List.singleton_append, joinSlash_cons_cons, joinSlash_single, joinSlash_single]
    | cons h2 t =>
      have ih' := ih (by simp)
      rw [List.cons_append] at ih'
      rw [List.cons_append, List.cons_append, joinSlash_cons_cons, ih',
        joinSlash_cons_cons]
      simp [List.append_assoc]

theorem joinSlash_eq_head_append (g : PStr) (rest : List PStr) :
    ∃ t, joinSlash (g :: rest) = g ++ t := by
  cases rest with
  | nil => exact ⟨[], (List.append_nil g).symm⟩
  | cons h2 t => exact ⟨'/' :: joinSlash (h2 :: t), rfl⟩

theorem joinSlash_getLast_not_slash (l : List PStr) (hl : l ≠ [])
    (hcomps : ∀ g ∈ l, g ≠ [] ∧ '/' ∉ g) :
    ∀ c, (joinSlash l).getLast? = some c → isSlashChar c = false := by
  induction l with
  | nil => exact absurd rfl hl
  | cons g rest ih =>
    cases rest with
    | nil =>
      intro c hc
      rw [joinSlash_single] at hc
      have hmem := mem_of_getLastEq g c hc
      have := (hcomps g (List.mem_cons_self g [])).2
      simp [isSlashChar]
      intro he
      exact this (he ▸ hmem)
    | cons h2 t =>
      intro c hc
      rw [joinSlash_cons_cons] at hc
      have hJ : joinSlash (h2 :: t) ≠ [] :=
        joinSlash_ne_nil (h2 :: t) (by simp)
          (fun g' hg' => (hcomps g' (List.mem_cons.mpr (Or.inr hg'))).1)
      rw [List.getLast?_append_of_ne_nil _ (by simp : ('/' :: joinSlash (h2 :: t)) ≠ [])] at hc
      rw [show ('/' :: joinSlash (h2 :: t)) = ['/'] ++ joinSlash (h2 :: t) from rfl,
        List.getLast?_append_of_ne_nil _ hJ] at hc
      exact ih (by simp) (fun g' hg' => hcomps g' (List.mem_cons.mpr (Or.inr hg'))) c hc

theorem pyDirname_noSlash (x : PStr) (h : '/' ∉ x) : pyDirname x = [] := by
  rw [pyDirname]
  have hdrop : x.reverse.dropWhile (fun c => !isSlashChar c) = [] := by
    apply List.dropWhile_eq_nil_iff.mpr
    intro c hc
    have : c ∈ x := by simpa using hc
    have hcne : ¬ c = '/' := fun he => h (he ▸ this)
    simp [isSlashChar, hcne]
  rw [hdrop]
  simp

theorem pyDirname_join_append (l : List PStr) (x : PStr) (hl : l ≠ [])
    (hcomps : ∀ g ∈ l, g ≠ [] ∧ '/' ∉ g) (hx : '/' ∉ x) :
    pyDirname (joinSlash (l ++ [x])) = joinSlash l := by
  rw [joinSlash_append_single l x hl, pyDirname]
  have hrev : (joinSlash l ++ '/' :: x).reverse = x.reverse ++ '/' :: (joinSlash l).reverse := by
    rw [List.reverse_append, List.reverse_cons, List.append_assoc, List.singleton_append]
  rw [hrev]
  have hdw : (x.reverse ++ '/' :: (joinSlash l).reverse).dropWhile (fun c => !isSlashChar c) =
      '/' :: (joinSlash l).reverse := by
    rw [dropWhile_append_all _ x.reverse _ (by
      intro c hc
      have : c ∈ x := by simpa using hc
      have hcne : ¬ c = '/' := fun he => hx (he ▸ this)
      simp [isSlashChar, hcne])]
    exact dropWhile_cons_neg _ '/' _ (by simp [isSlashChar])
  rw [hdw, List.reverse_cons, List.reverse_reverse]
  obtain ⟨g, rest, rfl⟩ : ∃ g rest, l = g :: rest := by
    cases l with
    | nil => exact absurd rfl hl
    | cons g rest => exact ⟨g, rest, rfl⟩
  have hg := hcomps g (List.mem_cons_self g rest)
  obtain ⟨c0, g', rfl⟩ : ∃ c0 g', g = c0 :: g' := by
    cases g with
    | nil => exact absurd rfl hg.1
    | cons c0 g' => exact ⟨c0, g', rfl⟩
  have hc0 : isSlashChar c0 = false := by
    have : ¬ c0 = '/' := fun he => hg.2 (he ▸ List.mem_cons_self c0 g')
    simp [isSlashChar, this]
  obtain ⟨t0, ht0⟩ := joinSlash_eq_head_append (c0 :: g') rest
  have hempty : (joinSlash ((c0 :: g') :: rest) ++ ['/']).isEmpty = false := by
    rw [ht0]
    simp [List.isEmpty_iff]
  have hall : (joinSlash ((c0 :: g') :: rest) ++ ['/']).all isSlashChar = false := by
    rw [ht0]
    have hmem : c0 ∈ (c0 :: g' ++ t0) ++ ['/'] := by simp
    rcases hb : ((c0 :: g' ++ t0) ++ ['/']).all isSlashChar with _ | _
    · rfl
    · have := List.all_eq_true.mp hb c0 hmem
      rw [hc0] at this
      simp at this
  rw [if_neg (by simp [hempty, hall])]
  have hrev2 : (joinSlash ((c0 :: g') :: rest) ++ ['/']).reverse =
      '/' :: (joinSlash ((c0 :: g') :: rest)).reverse := by
    rw [List.reverse_append]
    rfl
  rw [hrev2, List.dropWhile_cons, if_pos (by simp [isSlashChar])]
  cases hJr : (joinSlash ((c0 :: g') :: rest)).reverse with
  | nil =>
    have : joinSlash ((c0 :: g') :: rest) = [] := by
      simpa using congrArg List.reverse hJr
    exact absurd this (joinSlash_ne_nil _ (by simp) (fun g'' hg'' => (hcomps g'' hg'').1))
  | cons y ys =>
    have hy : isSlashChar y = false := by
      apply joinSlash_getLast_not_slash ((c0 :: g') :: rest) (by simp) hcomps y
      rw [← List.head?_reverse, hJr]
      rfl
    rw [dropWhile_cons_neg _ y ys (by simp [hy]), ← hJr, List.reverse_reverse]

theorem foldl_pyJoin2_eq_joinSlash (rs : List PStr) :
    ∀ q : PStr, q ≠ [] →
      (∀ c, q.getLast? = some c → isSlashChar c = false) →
      (∀ g ∈ rs, g ≠ [] ∧ '/' ∉ g) →
      rs.foldl pyJoin2 q = joinSlash (q :: rs) := by
  induction rs with
  | nil => intro q _ _ _; rfl
  | cons r rs ih =>
    intro q hq hqlast hcomps
    have hr := hcomps r (List.mem_cons_self r rs)
    obtain ⟨cr, r', rfl⟩ : ∃ cr r', r = cr :: r' := by
      cases r with
      | nil => exact absurd rfl hr.1
      | cons cr r' => exact ⟨cr, r', rfl⟩
    have hcr : ¬ cr = '/' := fun he => hr.2 (he ▸ List.mem_cons_self cr r')
    have hlastne : ¬ q.getLast? = some '/' := by
      intro he
      have := hqlast '/' he
      simp [isSlashChar] at this
    have hjoin : pyJoin2 q (cr :: r') = q ++ '/' :: (cr :: r') := by
      rw [pyJoin2, if_neg (by simp [hcr]), if_neg (by simp [List.isEmpty_iff, hq, hlastne])]
    rw [List.foldl_cons, hjoin,
      ih (q ++ '/' :: (cr :: r')) (by simp)
        (fun c hc => by
          rw [List.getLast?_append_of_ne_nil _ (by simp : ('/' :: (cr :: r')) ≠ [])] at hc
          rw [show ('/' :: (cr :: r')) = ['/'] ++ (cr :: r') from rfl,
            List.getLast?_append_of_ne_nil _ (by simp : (cr :: r') ≠ [])] at hc
          have hm := mem_of_getLastEq _ c hc
          have : ¬ c = '/' := fun he => hr.2 (he ▸ hm)
          simp [isSlashChar, this])
        (fun g hg => hcomps g (List.mem_cons.mpr (Or.inr hg)))]
    cases rs with
    | nil => rw [joinSlash_single, joinSlash_cons_cons, joinSlash_single]
    | cons s t =>
      rw [joinSlash_cons_cons, joinSlash_cons_cons, joinSlash_cons_cons]
      simp [List.append_assoc]

theorem pyJoinList_eq_joinSlash (l : List PStr) (hl : l ≠ [])
    (hcomps : ∀ g ∈ l, g ≠ [] ∧ '/' ∉ g) : pyJoinList l = joinSlash l := by
  cases l with
  | nil => exact absurd rfl hl
  | cons q rs =>
    have hq := hcomps q (List.mem_cons_self q rs)
    show rs.foldl pyJoin2 q = joinSlash (q :: rs)
    exact foldl_pyJoin2_eq_joinSlash rs q hq.1
      (fun c hc => by
        have hm := mem_of_getLastEq q c hc
        have : ¬ c = '/' := fun he => hq.2 (he ▸ hm)
        simp [isSlashChar, this])
      (fun g hg => hcomps g (List.mem_cons.mpr (Or.inr hg)))

/-- C6: section folding with maximum depth 2 maps a file under the corpus root
to the directory of its path relative to the root truncated to at most two
components (so `docs/api/v1/intro.md` folds into `docs/api`), maps a file
directly in the root to the root directory itself, and the root section is
rendered under the distinct top-level name "Home". -/
theorem section_folding_depth_two (repoPath fname : PStr) (parts : List PStr)
    (hrepo : repoPath ≠ [])
    (hrlast : ¬ repoPath.getLast? = some '/')
    (hparts : ∀ g ∈ parts, g ≠ [] ∧ '/' ∉ g ∧ g ≠ pstr ".")
    (hf : fname ≠ []) (hfs : '/' ∉ fname) :
    effectiveSectionDir (repoPath ++ '/' :: joinSlash (parts ++ [fname])) repoPath 2 =
      (if parts = [] then repoPath
        else repoPath ++ '/' :: joinSlash (parts.take 2)) ∧
    sectionDisplayName repoPath repoPath = pstr "Home" := by
  constructor
  · have hcomps : ∀ g ∈ parts ++ [fname], g ≠ [] ∧ '/' ∉ g := by
      intro g hg
      rcases List.mem_append.mp hg with hm | hm
      · exact ⟨(hparts g hm).1, (hparts g hm).2.1⟩
      · rw [List.mem_singleton.mp hm]
        exact ⟨hf, hfs⟩
    have hPC : pathComps (joinSlash (parts ++ [fname])) = parts ++ [fname] :=
      pathComps_joinSlash _ (by simp) hcomps
    have hrel : pyRelpath (repoPath ++ '/' :: joinSlash (parts ++ [fname])) repoPath =
        joinSlash (parts ++ [fname]) := by
      rw [pyRelpath_of_comps _ _ (by rw [hPC]; simp), hPC]
    simp only [effectiveSectionDir]
    rw [hrel]
    cases parts with
    | nil =>
      rw [List.nil_append, joinSlash_single, pyDirname_noSlash fname hfs]
      simp
    | cons p ps =>
      have hdir : pyDirname (joinSlash ((p :: ps) ++ [fname])) = joinSlash (p :: ps) :=
        pyDirname_join_append (p :: ps) fname (by simp)
          (fun g hg => ⟨(hparts g hg).1, (hparts g hg).2.1⟩) hfs
      rw [hdir]
      have hJne : (joinSlash (p :: ps)).isEmpty = false := by
        have hne := joinSlash_ne_nil (p :: ps) (by simp) (fun g hg => (hparts g hg).1)
        cases hJ : joinSlash (p :: ps) with
        | nil => exact absurd hJ hne
        | cons a l => rfl
      rw [hJne]
      simp only [Bool.false_eq_true, if_false]
      have hsplit : splitSlash (joinSlash (p :: ps)) = p :: ps :=
        splitSlash_joinSlash _ (by simp) (fun g hg => (hparts g hg).2.1)
      rw [hsplit]
      have htake : ∀ g ∈ (p :: ps).take 2, g ≠ [] ∧ '/' ∉ g := fun g hg =>
        ⟨(hparts g (List.mem_of_mem_take hg)).1, (hparts g (List.mem_of_mem_take hg)).2.1⟩
      have hjl : pyJoinList ((p :: ps).take 2) = joinSlash ((p :: ps).take 2) :=
        pyJoinList_eq_joinSlash _ (by rw [List.take_succ_cons]; simp) htake
      rw [hjl]
      have hdot : ¬ joinSlash ((p :: ps).take 2) = pstr "." := by
        rw [List.take_succ_cons]
        cases hq : ps.take 1 with
        | nil =>
          rw [joinSlash_single]
          exact (hparts p (List.mem_cons_self p ps)).2.2
        | cons q t =>
          rw [joinSlash_cons_cons]
          intro he
          have hlen := congrArg List.length he
          have hp1 : p ≠ [] := (hparts p (List.mem_cons_self p ps)).1
          have hp2 : 0 < p.length := List.length_pos.mpr hp1
          simp only [List.length_append, List.length_cons, pstr] at hlen
          simp at hlen
          omega
      rw [if_neg hdot]
      have hhead : ¬ (joinSlash ((p :: ps).take 2)).head? = some '/' := by
        rw [List.take_succ_cons]
        obtain ⟨t0, ht0⟩ := joinSlash_eq_head_append p (ps.take 1)
        rw [ht0]
        have hp1 : p ≠ [] := (hparts p (List.mem_cons_self p ps)).1
        rw [List.head?_append_of_ne_nil _ hp1]
        obtain ⟨c0, p', rfl⟩ : ∃ c0 p', p = c0 :: p' := by
          cases p with
          | nil => exact absurd rfl hp1
          | cons c0 p' => exact ⟨c0, p', rfl⟩
        have : ¬ c0 = '/' :=
          fun he => (hparts (c0 :: p') (List.mem_cons_self _ ps)).2.1
            (he ▸ List.mem_cons_self c0 p')
        simp [this]
      have hj2 : pyJoin2 repoPath (joinSlash ((p :: ps).take 2)) =
          repoPath ++ '/' :: joinSlash ((p :: ps).take 2) := by
        rw [pyJoin2, if_neg hhead, if_neg (by simp [List.isEmpty_iff, hrepo, hrlast])]
      rw [hj2]
      simp
  · rw [sectionDisplayName, pyRelpath_self]
    rfl

/-- Witness for C6: under root `/repo`, the file `docs/api/v1/intro.md` folds
into the section `/repo/docs/api`, and the root section is named "Home". -/
theorem section_folding_depth_two_witness :
    effectiveSectionDir (pstr "/repo" ++ '/' :: joinSlash
        ([pstr "docs", pstr "api", pstr "v1"] ++ [pstr "intro.md"])) (pstr "/repo") 2 =
      (if [pstr "docs", pstr "api", pstr "v1"] = [] then pstr "/repo"
        else pstr "/repo" ++ '/' :: joinSlash ([pstr "docs", pstr "api", pstr "v1"].take 2)) ∧
    sectionDisplayName (pstr "/repo") (pstr "/repo") = pstr "Home" :=
  section_folding_depth_two (pstr "/repo") (pstr "intro.md")
    [pstr "docs", pstr "api", pstr "v1"] (by decide) (by decide) (by decide)
    (by decide) (by decide)

theorem foldl_set_get (files : List PStr) (σ : PStr → PStr) :
    ∀ (d₀ : PyDict) (k : PStr),
      pyDictGet (files.foldl (fun d f => pyDictSet d f (σ f)) d₀) k =
        if k ∈ files then some (σ k) else pyDictGet d₀ k := by
  induction files with
  | nil => intro d₀ k; simp
  | cons f fs ih =>
    intro d₀ k
    rw [List.foldl_cons, ih]
    by_cases hk : k ∈ fs
    · rw [if_pos hk, if_pos (List.mem_cons.mpr (Or.inr hk))]
    · rw [if_neg hk, pyDictGet_set]
      by_cases hkf : f = k
      · subst hkf
        rw [if_pos rfl, if_pos (List.mem_cons_self f fs)]
      · have hkf' : ¬ k = f := fun he => hkf he.symm
        rw [if_neg hkf, if_neg (by simp [List.mem_cons, hkf', hk])]

theorem map_files_to_effective_sections_get (files : List PStr) (repo : PStr) (k : PStr) :
    pyDictGet (map_files_to_effective_sections files repo 2) k =
      if k ∈ files then some (effectiveSectionDir k repo 2) else none := by
  rw [map_files_to_effective_sections, foldl_set_get]
  by_cases hk : k ∈ files
  · rw [if_pos hk, if_pos hk]
  · rw [if_neg hk, if_neg hk]
    rfl

theorem pyDictGet_some_mem (d : PyDict) (k v : PStr) (h : pyDictGet d k = some v) :
    (k, v) ∈ d := by
  induction d with
  | nil => simp [pyDictGet] at h
  | cons kv rest ih =>
    obtain ⟨k₁, v₁⟩ := kv
    rw [pyDictGet_cons] at h
    by_cases h1 : k₁ = k
    · rw [if_pos h1] at h
      injection h with hv
      subst h1
      subst hv
      exact List.mem_cons_self _ rest
    · rw [if_neg h1] at h
      exact List.mem_cons.mpr (Or.inr (ih h))

theorem countP_flatMap_sum (ds : List PStr) (g : PStr → List (PStr × PStr))
    (p : PStr × PStr → Bool) :
    (ds.flatMap g).countP p = (ds.map (fun d => (g d).countP p)).sum := by
  induction ds with
  | nil => rfl
  | cons d ds ih => simp [List.flatMap_cons, List.countP_append, ih]

theorem sum_indicator_zero (x : PStr) (ds : List PStr) (hx : x ∉ ds) :
    (ds.map (fun d => if x = d then 1 else 0)).sum = 0 := by
  induction ds with
  | nil => rfl
  | cons d ds ih =>
    have h1 : ¬ x = d := fun he => hx (List.mem_cons.mpr (Or.inl he))
    rw [List.map_cons, List.sum_cons, if_neg h1,
      ih (fun hm => hx (List.mem_cons.mpr (Or.inr hm)))]

theorem sum_indicator_one (x : PStr) (ds : List PStr) (hnd : ds.Nodup) (hx : x ∈ ds) :
    (ds.map (fun d => if x = d then 1 else 0)).sum = 1 := by
  induction ds with
  | nil => simp at hx
  | cons d ds ih =>
    rw [List.nodup_cons] at hnd
    rcases List.mem_cons.mp hx with rfl | hx'
    · rw [List.map_cons, List.sum_cons, if_pos rfl, sum_indicator_zero x ds hnd.1]
    · have h1 : ¬ x = d := fun he => hnd.1 (he ▸ hx')
      rw [List.map_cons, List.sum_cons, if_neg h1, ih hnd.2 hx']

theorem filter_countP_nodup (files : List PStr) (hnd : files.Nodup) (q : PStr → Bool)
    (f : PStr) :
    (files.filter q).countP (fun x => decide (x = f)) =
      if q f = true ∧ f ∈ files then 1 else 0 := by
  induction files with
  | nil => simp
  | cons a l ih =>
    rw [List.nodup_cons] at hnd
    have ihl := ih hnd.2
    rw [List.filter_cons]
    by_cases hfa : f = a
    · subst hfa
      by_cases hq : q f = true
      · rw [if_pos hq, List.countP_cons, ihl]
        have h1 : ¬ (q f = true ∧ f ∈ l) := fun hc => hnd.1 hc.2
        have h2 : q f = true ∧ f ∈ f :: l := ⟨hq, List.mem_cons_self f l⟩
        rw [if_neg h1, if_pos h2]
        simp
      · rw [if_neg hq, ihl]
        have h1 : ¬ (q f = true ∧ f ∈ l) := fun hc => hnd.1 hc.2
        have h2 : ¬ (q f = true ∧ f ∈ f :: l) := fun hc => hq hc.1
        rw [if_neg h1, if_neg h2]
    · have hmemiff : (q f = true ∧ f ∈ a :: l) ↔ (q f = true ∧ f ∈ l) := by
        constructor
        · rintro ⟨h1, h2⟩
          rcases List.mem_cons.mp h2 with he | he
          · exact absurd he hfa
          · exact ⟨h1, he⟩
        · rintro ⟨h1, h2⟩
          exact ⟨h1, List.mem_cons.mpr (Or.inr h2)⟩
      rw [if_congr hmemiff rfl rfl]
      by_cases hq : q a = true
      · rw [if_pos hq, List.countP_cons, ihl,
          if_neg (show ¬ decide (a = f) = true by simp; exact fun he => hfa he.symm),
          Nat.add_zero]
      · rw [if_neg hq, ihl]

theorem sectionFileEntries_countP (directory : PStr) (files : List PStr) (fm : PyDict)
    (ds : PyDict) (f : PStr) (hnd : files.Nodup) :
    (sectionFileEntries directory files fm ds).countP (fun e => decide (e.1 = f)) =
      if pyDictGet fm f = some directory ∧ f ∈ files then 1 else 0 := by
  rw [sectionFileEntries, sortPairs, (List.perm_insertionSort _ _).countP_eq,
    List.countP_map]
  have hcomp : ((fun e : PStr × PStr => decide (e.1 = f)) ∘
      (fun f' => (f', (pyDictGet ds f').getD (pstr "No summary")))) =
      fun f' => decide (f' = f) := by
    funext f'
    rfl
  rw [hcomp, filter_countP_nodup files hnd _ f]
  by_cases hc : pyDictGet fm f = some directory
  · simp [hc]
  · simp [hc]

theorem mem_sortStrs (x : PStr) (l : List PStr) : x ∈ sortStrs l ↔ x ∈ l := by
  rw [sortStrs]
  exact (List.perm_insertionSort _ l).mem_iff

theorem nodup_sortStrs (l : List PStr) (h : l.Nodup) : (sortStrs l).Nodup := by
  rw [sortStrs]
  exact (List.perm_insertionSort _ l).symm.nodup h

/-- C7: for every discovered file list (without duplicates) and every possibly
partial summaries map, the assembled document has exactly one line entry per
discovered file — a missing summary never drops a file or fails assembly — and
a file with no summary entry is rendered with the fixed placeholder
"No summary". -/
theorem document_assembly_one_line_per_file (files : List PStr) (repoPath : PStr)
    (docSummaries : PyDict) (hnd : files.Nodup) :
    ∀ f ∈ files,
      (generate_llms_txt_entries files repoPath docSummaries).countP
          (fun e => decide (e.1 = f)) = 1 ∧
      (∀ e ∈ generate_llms_txt_entries files repoPath docSummaries, e.1 = f →
        e.2 = (pyDictGet docSummaries f).getD (pstr "No summary")) := by
  intro f hf
  have hget : pyDictGet (map_files_to_effective_sections files repoPath 2) f =
      some (effectiveSectionDir f repoPath 2) := by
    rw [map_files_to_effective_sections_get, if_pos hf]
  constructor
  · simp only [generate_llms_txt_entries]
    rw [countP_flatMap_sum]
    have hcong : (sortStrs ((map_files_to_effective_sections files repoPath 2).map
          (fun kv => kv.2)).dedup).map
        (fun d => (sectionFileEntries d files
          (map_files_to_effective_sections files repoPath 2) docSummaries).countP
          (fun e => decide (e.1 = f))) =
        (sortStrs ((map_files_to_effective_sections files repoPath 2).map
          (fun kv => kv.2)).dedup).map
        (fun d => if effectiveSectionDir f repoPath 2 = d then 1 else 0) := by
      apply List.map_congr_left
      intro d _
      rw [sectionFileEntries_countP d files _ docSummaries f hnd, hget]
      by_cases he : effectiveSectionDir f repoPath 2 = d
      · have hcond : some (effectiveSectionDir f repoPath 2) = some d ∧ f ∈ files :=
          ⟨by rw [he], hf⟩
        rw [if_pos hcond, if_pos he]
      · have hcond : ¬ (some (effectiveSectionDir f repoPath 2) = some d ∧ f ∈ files) := by
          intro hc
          exact he (Option.some_inj.mp hc.1)
        rw [if_neg hcond, if_neg he]
    rw [hcong]
    apply sum_indicator_one
    · exact nodup_sortStrs _ (List.nodup_dedup _)
    · rw [mem_sortStrs, List.mem_dedup]
      exact List.mem_map.mpr ⟨(f, effectiveSectionDir f repoPath 2),
        pyDictGet_some_mem _ _ _ hget, rfl⟩
  · intro e he hef
    simp only [generate_llms_txt_entries] at he
    obtain ⟨d, _, he2⟩ := List.mem_flatMap.mp he
    rw [sectionFileEntries, sortPairs] at he2
    have he3 := (List.perm_insertionSort _ _).mem_iff.mp he2
    obtain ⟨f', hf', hfe⟩ := List.mem_map.mp he3
    rw [← hfe] at hef
    rw [← hfe]
    simp only []
    simp only [] at hef
    rw [hef]

/-- Witness for C7: two files under `/repo`, only the first summarized; the
second still gets exactly one line, rendered with "No summary". -/
theorem document_assembly_one_line_per_file_witness :
    (generate_llms_txt_entries [pstr "/repo/README.md", pstr "/repo/docs/new.md"]
        (pstr "/repo") [(pstr "/repo/README.md", pstr "The main README.")]).countP
        (fun e => decide (e.1 = pstr "/repo/docs/new.md")) = 1 ∧
    (∀ e ∈ generate_llms_txt_entries [pstr "/repo/README.md", pstr "/repo/docs/new.md"]
        (pstr "/repo") [(pstr "/repo/README.md", pstr "The main README.")],
      e.1 = pstr "/repo/docs/new.md" →
      e.2 = (pyDictGet [(pstr "/repo/README.md", pstr "The main README.")]
        (pstr "/repo/docs/new.md")).getD (pstr "No summary")) :=
  document_assembly_one_line_per_file
    [pstr "/repo/README.md", pstr "/repo/docs/new.md"] (pstr "/repo")
    [(pstr "/repo/README.md", pstr "The main README.")]
    (by decide) (pstr "/repo/docs/new.md") (by decide)
